import Mathlib

/-!
Verification of the log-analysis pipeline in `analyze_log.py`.

The file embeds the program shallowly:

* `Json`, `JsonList`, `JsonPairs` model the Python values produced by
  `json.loads` (objects keep insertion order; a duplicate key replaces the
  value in place, as Python `dict` construction does).
* `parseValue`, `parseMembers`, `parseElems`, `json_loads` model the CPython
  `json` decoder (default, strict mode): whitespace is space, tab, newline,
  carriage return; strings are double quoted with the standard escapes and
  `\uXXXX` (surrogate pairs combined); numbers follow the decoder's regex
  `-?(0|[1-9]\d*)(\.\d+)?([eE][-+]?\d+)?`; the constants `NaN`, `Infinity`
  and `-Infinity` are accepted.  Integers are represented exactly; a float is
  kept as its source lexeme, since no behaviour verified here depends on
  float arithmetic.  Recursion is bounded by a fuel parameter; `json_loads`
  supplies fuel larger than the input length, which suffices because every
  recursive step consumes at least one character.
* `findBlockSpan`, `extract_first_json_block` model
  `re.search(r"(\x7b[\s\S]*\x7d|\[[\s\S]*\])", text)` followed by
  `json.loads`: the match is the leftmost opening symbol that has a closer of
  the same kind somewhere after it, extended greedily to the last such closer
  in the whole text.
* `escChar` … `json_dumps` model `json.dumps(result, indent=2,
  ensure_ascii=False)`.
* `call_openai_chat`, `analyze_log_text`, `main_model` model the effectful
  skeleton: the environment is a function `String → Option String`, the
  remote endpoint is an oracle from the request to a `RemoteResponse`, and an
  `Outcome` records the exit code, the lines printed to standard output, the
  number of network calls performed, and the text written to the optional
  output file.  Python exceptions of the modelled fragment are represented by
  `Option`/explicit fallbacks, so every modelled function is total.
-/

mutual

inductive Json where
  | null : Json
  | bool (b : Bool) : Json
  | int (n : Int) : Json
  | float (lexeme : List Char) : Json
  | str (s : List Char) : Json
  | arr (elems : JsonList) : Json
  | obj (pairs : JsonPairs) : Json

inductive JsonList where
  | nil : JsonList
  | cons (hd : Json) (tl : JsonList) : JsonList

inductive JsonPairs where
  | nil : JsonPairs
  | cons (key : List Char) (val : Json) (tl : JsonPairs) : JsonPairs

end

deriving instance DecidableEq for Json

/-- Does the ordered dictionary already contain the key? -/
def pairsHasKey : JsonPairs → List Char → Bool
  | JsonPairs.nil, _ => false
  | JsonPairs.cons k _ tl, key => decide (k = key) || pairsHasKey tl key

/-- Replace the value stored at an existing key, keeping its position. -/
def pairsSetKey : JsonPairs → List Char → Json → JsonPairs
  | JsonPairs.nil, _, _ => JsonPairs.nil
  | JsonPairs.cons k v tl, key, newV =>
      if k = key then JsonPairs.cons k newV (pairsSetKey tl key newV)
      else JsonPairs.cons k v (pairsSetKey tl key newV)

/-- Append a fresh key at the end, as Python dict insertion does. -/
def pairsAppend : JsonPairs → List Char → Json → JsonPairs
  | JsonPairs.nil, k, v => JsonPairs.cons k v JsonPairs.nil
  | JsonPairs.cons k0 v0 tl, k, v => JsonPairs.cons k0 v0 (pairsAppend tl k v)

/-- One `dict[key] = value` step: replace in place or append. -/
def dictInsert (ps : JsonPairs) (k : List Char) (v : Json) : JsonPairs :=
  if pairsHasKey ps k then pairsSetKey ps k v else pairsAppend ps k v

def pairsToDictAux : JsonPairs → JsonPairs → JsonPairs
  | acc, JsonPairs.nil => acc
  | acc, JsonPairs.cons k v tl => pairsToDictAux (dictInsert acc k v) tl

/-- `dict(pairs)` applied to the parsed member list, as the CPython decoder
does at the end of `JSONObject`: later duplicates overwrite earlier ones,
first occurrence keeps its position. -/
def pairsToDict (ps : JsonPairs) : JsonPairs := pairsToDictAux JsonPairs.nil ps

/-- JSON whitespace of the CPython decoder: space, tab, newline, return. -/
def isJsonWs (c : Char) : Bool :=
  c = ' ' || c = Char.ofNat 9 || c = Char.ofNat 10 || c = Char.ofNat 13

def skipWs : List Char → List Char
  | [] => []
  | c :: r => if isJsonWs c then skipWs r else c :: r

def isDigitCh (c : Char) : Bool := 48 ≤ c.toNat && c.toNat ≤ 57

/-- Longest digit run at the front of the list, with the remainder. -/
def takeDigits : List Char → (List Char × List Char)
  | [] => ([], [])
  | c :: r =>
      if isDigitCh c then
        let p := takeDigits r
        (c :: p.1, p.2)
      else ([], c :: r)

def hexVal (c : Char) : Option Nat :=
  if 48 ≤ c.toNat && c.toNat ≤ 57 then some (c.toNat - 48)
  else if 97 ≤ c.toNat && c.toNat ≤ 102 then some (c.toNat - 87)
  else if 65 ≤ c.toNat && c.toNat ≤ 70 then some (c.toNat - 55)
  else none

/-- The value of four hex digits, most significant first. -/
def hexQuad (a b c d : Nat) : Nat := ((a * 16 + b) * 16 + c) * 16 + d

/-- Does the literal occur at the front of the input? -/
def litMatch : List Char → List Char → Bool
  | [], _ => true
  | _ :: _, [] => false
  | p :: ps, c :: cs => p = c && litMatch ps cs

/-- Integer part of the number regex: `0|[1-9]\d*`. -/
def numIntPart : List Char → Option (List Char × List Char)
  | [] => none
  | c :: r =>
      if c = '0' then some (['0'], r)
      else if isDigitCh c then
        let p := takeDigits r
        some (c :: p.1, p.2)
      else none

/-- Optional fraction group `(\.\d+)?`; on failure nothing is consumed. -/
def numFrac : List Char → (List Char × List Char)
  | '.' :: r =>
      match takeDigits r with
      | ([], _) => ([], '.' :: r)
      | (ds, rest) => ('.' :: ds, rest)
  | l => ([], l)

/-- Optional exponent group `([eE][-+]?\d+)?`; on failure nothing is
consumed. -/
def numExp : List Char → (List Char × List Char)
  | [] => ([], [])
  | c :: r =>
      if c = 'e' || c = 'E' then
        match r with
        | [] => ([], c :: r)
        | s :: r2 =>
            if s = '+' || s = '-' then
              match takeDigits r2 with
              | ([], _) => ([], c :: s :: r2)
              | (ds, rest) => (c :: s :: ds, rest)
            else
              match takeDigits r with
              | ([], _) => ([], c :: r)
              | (ds, rest) => (c :: ds, rest)
      else ([], c :: r)

/-- The unsigned part of the number match: integer part, then the optional
fraction and exponent groups.  Returns the matched lexeme (the sign prefix
included), whether it is an integer (no fraction and no exponent group),
and the remainder. -/
def numBody (sgn : List Char) (s1 : List Char) : Option (List Char × Bool × List Char) :=
  match numIntPart s1 with
  | none => none
  | some (ip, s2) =>
      let fr := numFrac s2
      let ex := numExp fr.2
      some (sgn ++ ip ++ fr.1 ++ ex.1, fr.1.isEmpty && ex.1.isEmpty, ex.2)

/-- The number match of the decoder: `-?(0|[1-9]\d*)(\.\d+)?([eE][-+]?\d+)?`. -/
def parseNumber : List Char → Option (List Char × Bool × List Char)
  | '-' :: r => numBody ('-' :: []) r
  | s => numBody [] s

/-- Characters that could extend a number match: they are exactly the
characters that never immediately follow a completed value inside a
successful parse, which is what makes appending text behind a parsed value
safe. -/
def isNumCont (c : Char) : Bool :=
  isDigitCh c || c = '.' || c = 'e' || c = 'E' || c = '+' || c = '-'

/-- Precondition under which a successful value scan of a prefix is stable
when more text is appended: the value is delimiter-led (object, array or
string), or the first unconsumed character cannot extend a number match. -/
def valuePushSafe (s r : List Char) : Prop :=
  s.head? = some '{' ∨ s.head? = some '[' ∨ s.head? = some '"'
    ∨ ∃ c rs, r = c :: rs ∧ isNumCont c = false

def digitsToNat : List Char → Nat → Nat
  | [], acc => acc
  | c :: r, acc => digitsToNat r (acc * 10 + (c.toNat - 48))

/-- Python `int(lexeme)` on an integer lexeme of the number regex. -/
def lexToInt : List Char → Int
  | '-' :: r => - Int.ofNat (digitsToNat r 0)
  | l => Int.ofNat (digitsToNat l 0)

/-- The single character denoted by a simple backslash escape. -/
def escMap (e : Char) : Option Char :=
  if e = '"' then some '"'
  else if e = Char.ofNat 92 then some (Char.ofNat 92)
  else if e = '/' then some '/'
  else if e = 'b' then some (Char.ofNat 8)
  else if e = 'f' then some (Char.ofNat 12)
  else if e = 'n' then some (Char.ofNat 10)
  else if e = 'r' then some (Char.ofNat 13)
  else if e = 't' then some (Char.ofNat 9)
  else none

/-- Body of `scanstring` after the opening quote, with explicit fuel (the
wrapper `parseString` supplies more fuel than the input length, which
suffices because every step consumes at least one character): returns the
decoded content and the remainder after the closing quote.  Strict mode: raw
control characters and unknown escapes fail.  A high `\uXXXX` surrogate
followed by a low one is combined, as in the CPython decoder; an
uncombinable `\uXXXX` denoting a lone surrogate has no counterpart among
Lean characters and is abstracted by `Char.ofNat`. -/
def parseStringRestF : Nat → List Char → Option (List Char × List Char)
  | 0, _ => none
  | _ + 1, [] => none
  | _ + 1, '"' :: rest => some ([], rest)
  | f + 1, '\\' :: 'u' :: h1 :: h2 :: h3 :: h4 :: rest =>
      (match hexVal h1, hexVal h2, hexVal h3, hexVal h4 with
       | some a, some b, some c, some d =>
           if 55296 ≤ hexQuad a b c d && hexQuad a b c d ≤ 56319 then
             match rest with
             | '\\' :: 'u' :: g1 :: g2 :: g3 :: g4 :: rest2 =>
                 (match hexVal g1, hexVal g2, hexVal g3, hexVal g4 with
                  | some a2, some b2, some c2, some d2 =>
                      if 56320 ≤ hexQuad a2 b2 c2 d2 && hexQuad a2 b2 c2 d2 ≤ 57343 then
                        match parseStringRestF f rest2 with
                        | some (cs, r) =>
                            some (Char.ofNat
                              (65536 + (hexQuad a b c d - 55296) * 1024
                                + (hexQuad a2 b2 c2 d2 - 56320)) :: cs, r)
                        | none => none
                      else
                        match parseStringRestF f ('\\' :: 'u' :: g1 :: g2 :: g3 :: g4 :: rest2) with
                        | some (cs, r) => some (Char.ofNat (hexQuad a b c d) :: cs, r)
                        | none => none
                  | _, _, _, _ => none)
             | _ =>
                 match parseStringRestF f rest with
                 | some (cs, r) => some (Char.ofNat (hexQuad a b c d) :: cs, r)
                 | none => none
           else
             match parseStringRestF f rest with
             | some (cs, r) => some (Char.ofNat (hexQuad a b c d) :: cs, r)
             | none => none
       | _, _, _, _ => none)
  | f + 1, '\\' :: e :: rest =>
      (match escMap e with
       | some c =>
           match parseStringRestF f rest with
           | some (cs, r) => some (c :: cs, r)
           | none => none
       | none => none)
  | f + 1, c :: rest =>
      if c.toNat < 32 then none
      else
        match parseStringRestF f rest with
        | some (cs, r) => some (c :: cs, r)
        | none => none

/-- `scanstring` after the opening quote, with self-supplied fuel. -/
def parseString (s : List Char) : Option (List Char × List Char) :=
  parseStringRestF (s.length + 1) s

/-- One step of `_scan_once` of the CPython decoder at a position with no
leading whitespace, parameterised by the scanners used below it: dispatch on
the first character, then the literals `null`, `true`, `false`, then the
number regex, then `NaN`, `Infinity`, `-Infinity`. -/
def parseValueCore (pm : List Char → Option (JsonPairs × List Char))
    (pe : List Char → Option (JsonList × List Char)) :
    List Char → Option (Json × List Char)
  | [] => none
  | '"' :: rest =>
      (match parseString rest with
       | some (cs, r) => some (Json.str cs, r)
       | none => none)
  | '{' :: rest =>
      (match skipWs rest with
       | '}' :: r2 => some (Json.obj JsonPairs.nil, r2)
       | r1 =>
           match pm r1 with
           | some (ps, r) => some (Json.obj (pairsToDict ps), r)
           | none => none)
  | '[' :: rest =>
      (match skipWs rest with
       | ']' :: r2 => some (Json.arr JsonList.nil, r2)
       | r1 =>
           match pe r1 with
           | some (vs, r) => some (Json.arr vs, r)
           | none => none)
  | s =>
      if litMatch ('n' :: 'u' :: 'l' :: 'l' :: []) s then
        some (Json.null, s.drop 4)
      else if litMatch ('t' :: 'r' :: 'u' :: 'e' :: []) s then
        some (Json.bool true, s.drop 4)
      else if litMatch ('f' :: 'a' :: 'l' :: 's' :: 'e' :: []) s then
        some (Json.bool false, s.drop 5)
      else
        match parseNumber s with
        | some (lex, isInt, rest) =>
            if isInt then some (Json.int (lexToInt lex), rest)
            else some (Json.float lex, rest)
        | none =>
            if litMatch ('N' :: 'a' :: 'N' :: []) s then
              some (Json.float ('N' :: 'a' :: 'N' :: []), s.drop 3)
            else if litMatch ('I' :: 'n' :: 'f' :: 'i' :: 'n' :: 'i' :: 't' :: 'y' :: []) s then
              some (Json.float ('I' :: 'n' :: 'f' :: 'i' :: 'n' :: 'i' :: 't' :: 'y' :: []), s.drop 8)
            else if litMatch ('-' :: 'I' :: 'n' :: 'f' :: 'i' :: 'n' :: 'i' :: 't' :: 'y' :: []) s then
              some (Json.float ('-' :: 'I' :: 'n' :: 'f' :: 'i' :: 'n' :: 'i' :: 't' :: 'y' :: []), s.drop 9)
            else none

/-- One step of the member list of a nonempty object, entered after `\x7b`
and whitespace, parameterised by the scanners used below it.  The caller
applies `pairsToDict` to the collected pairs. -/
def parseMembersCore (pv : List Char → Option (Json × List Char))
    (pm : List Char → Option (JsonPairs × List Char)) :
    List Char → Option (JsonPairs × List Char)
  | '"' :: rest =>
      (match parseString rest with
       | none => none
       | some (k, r2) =>
           match skipWs r2 with
           | ':' :: r3 =>
               (match pv (skipWs r3) with
                | none => none
                | some (v, r4) =>
                    match skipWs r4 with
                    | '}' :: r5 => some (JsonPairs.cons k v JsonPairs.nil, r5)
                    | ',' :: r5 =>
                        (match pm (skipWs r5) with
                         | some (ps, r6) => some (JsonPairs.cons k v ps, r6)
                         | none => none)
                    | _ => none)
           | _ => none)
  | _ => none

/-- One step of the element list of a nonempty array, entered after `[` and
whitespace, parameterised by the scanners used below it. -/
def parseElemsCore (pv : List Char → Option (Json × List Char))
    (pe : List Char → Option (JsonList × List Char)) :
    List Char → Option (JsonList × List Char)
  | s =>
      match pv s with
      | none => none
      | some (v, r) =>
          match skipWs r with
          | ']' :: r2 => some (JsonList.cons v JsonList.nil, r2)
          | ',' :: r2 =>
              (match pe (skipWs r2) with
               | some (vs, r3) => some (JsonList.cons v vs, r3)
               | none => none)
          | _ => none

/-- The three mutually recursive scanners of the decoder, tied together by a
fuel parameter so that the recursion is structural on `Nat`. -/
def scanners : Nat →
    (List Char → Option (Json × List Char)) ×
    (List Char → Option (JsonPairs × List Char)) ×
    (List Char → Option (JsonList × List Char))
  | 0 => (fun _ => none, fun _ => none, fun _ => none)
  | f + 1 =>
      let p := scanners f
      (parseValueCore p.2.1 p.2.2, parseMembersCore p.1 p.2.1, parseElemsCore p.1 p.2.2)

def parseValue (f : Nat) (s : List Char) : Option (Json × List Char) := (scanners f).1 s

def parseMembers (f : Nat) (s : List Char) : Option (JsonPairs × List Char) := (scanners f).2.1 s

def parseElems (f : Nat) (s : List Char) : Option (JsonList × List Char) := (scanners f).2.2 s

theorem parseValue_zero (s : List Char) : parseValue 0 s = none := rfl

theorem parseValue_succ (f : Nat) (s : List Char) :
    parseValue (f + 1) s = parseValueCore (parseMembers f) (parseElems f) s := rfl

theorem parseMembers_zero (s : List Char) : parseMembers 0 s = none := rfl

theorem parseMembers_succ (f : Nat) (s : List Char) :
    parseMembers (f + 1) s = parseMembersCore (parseValue f) (parseMembers f) s := rfl

theorem parseElems_zero (s : List Char) : parseElems 0 s = none := rfl

theorem parseElems_succ (f : Nat) (s : List Char) :
    parseElems (f + 1) s = parseElemsCore (parseValue f) (parseElems f) s := rfl

/-- `json.loads`: skip whitespace, scan one value, require that only
whitespace remains.  Any decoding error is the `none` result. -/
def json_loads (s : List Char) : Option Json :=
  match parseValue (s.length + 1) (skipWs s) with
  | none => none
  | some (v, rest) =>
      match skipWs rest with
      | [] => some v
      | _ => none

/-- Prefix of the list up to and including the last occurrence of `c`, if
any: the greedy `[\s\S]*` behaviour of the extraction regex. -/
def takeToLast (c : Char) : List Char → Option (List Char)
  | [] => none
  | x :: xs =>
      match takeToLast c xs with
      | some r => some (x :: r)
      | none => if x = c then some [x] else none

/-- The span matched by `re.search(r"(\x7b[\s\S]*\x7d|\[[\s\S]*\])", text)`:
the leftmost opening symbol that has a closer of the same kind strictly
after it, extended to the last such closer in the whole text. -/
def findBlockSpan : List Char → Option (List Char)
  | [] => none
  | c :: rest =>
      if c = '{' then
        match takeToLast '}' rest with
        | some r => some ('{' :: r)
        | none => findBlockSpan rest
      else if c = '[' then
        match takeToLast ']' rest with
        | some r => some ('[' :: r)
        | none => findBlockSpan rest
      else findBlockSpan rest

/-- `extract_first_json_block`: find the span, try to parse it; every
failure is the `None` sentinel. -/
def extract_first_json_block (text : List Char) : Option Json :=
  match findBlockSpan text with
  | none => none
  | some block => json_loads block

def hexDigitLower (n : Nat) : Char :=
  if n < 10 then Char.ofNat (48 + n) else Char.ofNat (87 + n)

/-- Encoding of one character inside a dumped string, `ensure_ascii=False`:
quote, backslash and the named control characters get two-character escapes,
the remaining control characters get lowercase `\u00xx`, and every other
character (non-ASCII included) is emitted verbatim. -/
def escChar (c : Char) : List Char :=
  if c = '"' then '\\' :: '"' :: []
  else if c = Char.ofNat 92 then '\\' :: '\\' :: []
  else if c = Char.ofNat 10 then '\\' :: 'n' :: []
  else if c = Char.ofNat 13 then '\\' :: 'r' :: []
  else if c = Char.ofNat 9 then '\\' :: 't' :: []
  else if c = Char.ofNat 8 then '\\' :: 'b' :: []
  else if c = Char.ofNat 12 then '\\' :: 'f' :: []
  else if c.toNat < 32 then
    '\\' :: 'u' :: '0' :: '0' :: hexDigitLower (c.toNat / 16) :: hexDigitLower (c.toNat % 16) :: []
  else [c]

def escList : List Char → List Char
  | [] => []
  | c :: r => escChar c ++ escList r

def encodeJsonString (s : List Char) : List Char := '"' :: escList s ++ ['"']

/-- `indent=2`: two spaces per nesting level. -/
def jIndent (lvl : Nat) : List Char := List.replicate (2 * lvl) ' '

mutual

/-- `json.dumps(v, indent=2, ensure_ascii=False)` at a nesting level.  A
float is emitted as its stored lexeme; the claims verified here never
compare float reprs, so Python float formatting is abstracted. -/
def dumpVal : Json → Nat → List Char
  | Json.null, _ => 'n' :: 'u' :: 'l' :: 'l' :: []
  | Json.bool true, _ => 't' :: 'r' :: 'u' :: 'e' :: []
  | Json.bool false, _ => 'f' :: 'a' :: 'l' :: 's' :: 'e' :: []
  | Json.int n, _ => (toString n).data
  | Json.float lex, _ => lex
  | Json.str s, _ => encodeJsonString s
  | Json.arr JsonList.nil, _ => '[' :: ']' :: []
  | Json.arr (JsonList.cons x xs), lvl =>
      '[' :: '\n' :: jIndent (lvl + 1) ++ dumpVal x (lvl + 1) ++ dumpListRest xs (lvl + 1)
        ++ '\n' :: jIndent lvl ++ [']']
  | Json.obj JsonPairs.nil, _ => '{' :: '}' :: []
  | Json.obj (JsonPairs.cons k v ps), lvl =>
      '{' :: '\n' :: jIndent (lvl + 1) ++ encodeJsonString k ++ ':' :: ' ' :: dumpVal v (lvl + 1)
        ++ dumpPairsRest ps (lvl + 1) ++ '\n' :: jIndent lvl ++ ['}']

def dumpListRest : JsonList → Nat → List Char
  | JsonList.nil, _ => []
  | JsonList.cons x xs, lvl =>
      ',' :: '\n' :: jIndent lvl ++ dumpVal x lvl ++ dumpListRest xs lvl

def dumpPairsRest : JsonPairs → Nat → List Char
  | JsonPairs.nil, _ => []
  | JsonPairs.cons k v ps, lvl =>
      ',' :: '\n' :: jIndent lvl ++ encodeJsonString k ++ ':' :: ' ' :: dumpVal v lvl
        ++ dumpPairsRest ps lvl

end

/-- `json.dumps(result, indent=2, ensure_ascii=False)` as called in `main`. -/
def json_dumps (j : Json) : List Char := dumpVal j 0

/-- One role-tagged message of the chat request. -/
structure Message where
  role : String
  content : String
deriving DecidableEq

/-- The system instruction built in `analyze_log_text` (one Python string,
written in the source as adjacent literals). -/
def systemPrompt : String :=
  "You are an assistant that analyzes application error logs. " ++
  "Given a log, identify distinct error types, count occurrences, provide earliest and latest timestamps for each type, " ++
  "give one or two example messages for each type, estimate severity (low/medium/high), and provide remediation suggestions. " ++
  "Return a JSON object only. The JSON must include keys: \x27errors\x27 (array), \x27summary\x27 (string), \x27recommendations\x27 (array)."

/-- The fixed user-message text that precedes the log. -/
def userInstruction : String := "Analyze the following log. Output JSON only.\n\nLOG:\n"

/-- The two-message conversation built in `analyze_log_text`. -/
def build_messages (log_text : String) : List Message :=
  [{ role := "system", content := systemPrompt },
   { role := "user", content := userInstruction ++ log_text }]

/-- Abstraction of the response object of one remote call.
`attrContent = some c` means `resp.choices[0].message.content` evaluates
without raising and yields the text `c`; `none` means that attribute chain
raises.  `dictContent` plays the same role for the dict-style access
`resp["choices"][0]["message"]["content"]`, and `strRepr` is `str(resp)`. -/
structure RemoteResponse where
  attrContent : Option (List Char)
  dictContent : Option (List Char)
  strRepr : List Char

/-- The guarded content access at the end of `call_openai_chat`: attribute
access, then dict-style access, then `str(resp)`; never raises. -/
def response_content (r : RemoteResponse) : List Char :=
  match r.attrContent with
  | some c => c
  | none =>
      match r.dictContent with
      | some c => c
      | none => r.strRepr

/-- Result of a modelled program fragment: either `sys.exit(code)` after
printing `msg`, or a normal value. -/
inductive Proc (α : Type) where
  | exited (code : Nat) (msg : List Char) : Proc α
  | ok (a : α) : Proc α

def missingKeyMsg : List Char :=
  "ERROR: Please set the OPENAI_API_KEY environment variable.".data

/-- `call_openai_chat`: resolve the credential from the environment
(`os.getenv` after the `load_dotenv` overlay; Python truthiness makes the
empty string count as missing), exiting with code 1 before any network
activity if it is missing; otherwise perform exactly one remote call and
extract its content.  The second component counts network calls. -/
def call_openai_chat (messages : List Message) (model : String)
    (getenv : String → Option String)
    (remote : List Message → String → RemoteResponse) : Proc (List Char) × Nat :=
  match getenv "OPENAI_API_KEY" with
  | none => (Proc.exited 1 missingKeyMsg, 0)
  | some k =>
      if k = "" then (Proc.exited 1 missingKeyMsg, 0)
      else (Proc.ok (response_content (remote messages model)), 1)

def raw_response_key : List Char := "raw_response".data

/-- The fallback result `\x7b"raw_response": resp_text\x7d`. -/
def fallbackObj (resp_text : List Char) : Json :=
  Json.obj (JsonPairs.cons raw_response_key (Json.str resp_text) JsonPairs.nil)

/-- Lines 90 to 95 of the source: the parsed block if extraction succeeded,
the raw-text fallback object otherwise. -/
def analysisResult (resp_text : List Char) : Json :=
  match extract_first_json_block resp_text with
  | some parsed => parsed
  | none => fallbackObj resp_text

/-- `analyze_log_text`: build the prompt, call the remote model, extract. -/
def analyze_log_text (log_text model : String)
    (getenv : String → Option String)
    (remote : List Message → String → RemoteResponse) : Proc Json × Nat :=
  match call_openai_chat (build_messages log_text) model getenv remote with
  | (Proc.exited c m, n) => (Proc.exited c m, n)
  | (Proc.ok resp_text, n) => (Proc.ok (analysisResult resp_text), n)

/-- The parsed command line: `--file`, `--model`, `--output`. -/
structure Args where
  file : String
  model : String
  output : Option String

/-- The ambient state a run interacts with: whether `args.file` exists and
what it contains, the environment after the dotenv overlay, the remote
endpoint, and whether the optional output write succeeds (with the
stringified exception used in the failure message). -/
structure World where
  fileExists : Bool
  fileContents : String
  getenv : String → Option String
  remote : List Message → String → RemoteResponse
  writeOk : Bool
  writeError : String

/-- Observable outcome of one run of `main`. -/
structure Outcome where
  exitCode : Nat
  stdout : List (List Char)
  networkCalls : Nat
  fileWritten : Option (List Char)

def fileNotFoundMsg (path : String) : List Char :=
  ("ERROR: log file \x27" ++ path ++ "\x27 not found.").data

def wroteMsg (path : String) : List Char :=
  ("Wrote analysis JSON to: " ++ path).data

def writeFailMsg (path err : String) : List Char :=
  ("Failed to write output file " ++ path ++ ": " ++ err).data

/-- `main`: existence check on the log file (exit 1 when missing), then the
pipeline, then pretty-printing to standard output, then the optional file
write whose failure is caught locally and only reported.  Python falsiness
of `args.output` means an empty output path is treated like none.  A normal
return from `main` is exit code 0. -/
def main_model (args : Args) (w : World) : Outcome :=
  if w.fileExists = false then
    { exitCode := 1, stdout := [fileNotFoundMsg args.file], networkCalls := 0, fileWritten := none }
  else
    match analyze_log_text w.fileContents args.model w.getenv w.remote with
    | (Proc.exited code msg, n) =>
        { exitCode := code, stdout := [msg], networkCalls := n, fileWritten := none }
    | (Proc.ok result, n) =>
        let pretty := json_dumps result
        match args.output with
        | none => { exitCode := 0, stdout := [pretty], networkCalls := n, fileWritten := none }
        | some path =>
            if path = "" then
              { exitCode := 0, stdout := [pretty], networkCalls := n, fileWritten := none }
            else if w.writeOk then
              { exitCode := 0, stdout := [pretty, wroteMsg path], networkCalls := n,
                fileWritten := some pretty }
            else
              { exitCode := 0, stdout := [pretty, writeFailMsg path w.writeError], networkCalls := n,
                fileWritten := none }

/-- The serialized text `pretty` of a run that reaches the emit step. -/
def mainPretty (args : Args) (w : World) : List Char :=
  json_dumps (analysisResult (response_content (w.remote (build_messages w.fileContents) args.model)))

/-! Helper lemmas about the extraction scan. -/

theorem takeToLast_eq_none (c : Char) :
    ∀ l : List Char, (∀ x ∈ l, ¬(x = c)) → takeToLast c l = none := by
  intro l
  induction l with
  | nil => intro _; rfl
  | cons x xs ih =>
      intro h
      have hx : ¬(x = c) := h x (List.mem_cons_self x xs)
      have hxs := ih (fun y hy => h y (List.mem_cons_of_mem x hy))
      simp [takeToLast, hxs, hx]

theorem takeToLast_last (c : Char) {s : List Char} (hs : ∀ x ∈ s, ¬(x = c)) :
    ∀ xs : List Char, takeToLast c (xs ++ c :: s) = some (xs ++ [c]) := by
  intro xs
  induction xs with
  | nil => simp [takeToLast, takeToLast_eq_none c s hs]
  | cons y ys ih => simp [takeToLast, ih]

theorem takeToLast_extend (c : Char) {s s₁ : List Char} (h : takeToLast c s = some s₁) :
    ∀ xs : List Char, takeToLast c (xs ++ c :: s) = some (xs ++ c :: s₁) := by
  intro xs
  induction xs with
  | nil => simp [takeToLast, h]
  | cons y ys ih => simp [takeToLast, ih]

theorem takeToLast_ends (c : Char) :
    ∀ {l m : List Char}, takeToLast c l = some m → ∃ u, m = u ++ [c] := by
  intro l
  induction l with
  | nil => intro m h; simp [takeToLast] at h
  | cons x xs ih =>
      intro m h
      simp only [takeToLast] at h
      cases htl : takeToLast c xs with
      | some r =>
          rw [htl] at h
          obtain ⟨u, hu⟩ := ih htl
          exact ⟨x :: u, by simp at h; simp [← h, hu]⟩
      | none =>
          rw [htl] at h
          by_cases hx : x = c
          · refine ⟨[], ?_⟩
            simp [hx] at h
            simp [← h, hx]
          · simp [hx] at h

theorem findBlockSpan_skip :
    ∀ p r : List Char, (∀ x ∈ p, ¬(x = '{') ∧ ¬(x = '[')) →
      findBlockSpan (p ++ r) = findBlockSpan r := by
  intro p r
  induction p with
  | nil => intro _; rfl
  | cons y ys ih =>
      intro h
      have hy := h y (List.mem_cons_self y ys)
      have ihy := ih (fun x hx => h x (List.mem_cons_of_mem y hx))
      simp only [List.cons_append, findBlockSpan, if_neg hy.1, if_neg hy.2]
      exact ihy

theorem findBlockSpan_eq_none :
    ∀ t : List Char, (∀ x ∈ t, ¬(x = '{') ∧ ¬(x = '[')) → findBlockSpan t = none := by
  intro t
  induction t with
  | nil => intro _; rfl
  | cons y ys ih =>
      intro h
      have hy := h y (List.mem_cons_self y ys)
      have ihy := ih (fun x hx => h x (List.mem_cons_of_mem y hx))
      simp only [findBlockSpan, if_neg hy.1, if_neg hy.2]
      exact ihy

/-! Helper lemmas showing that a successful scan of a prefix is unchanged
when more text is appended behind it, provided the character right after
the consumed part cannot extend a number match.  They culminate in
`parseValue_push` and `json_loads_append_stop`. -/

theorem skipWs_push : ∀ {l : List Char} {c : Char} {xs : List Char},
    skipWs l = c :: xs → ∀ t, skipWs (l ++ t) = c :: (xs ++ t) := by
  intro l
  induction l with
  | nil => intro c xs h t; simp [skipWs] at h
  | cons y ys ih =>
      intro c xs h t
      by_cases hy : isJsonWs y = true
      · simp only [skipWs, if_pos hy] at h
        simp only [List.cons_append, skipWs, if_pos hy]
        exact ih h t
      · simp only [skipWs, if_neg hy] at h
        simp only [List.cons_append, skipWs, if_neg hy]
        injection h with h1 h2
        subst h1; subst h2
        rfl

theorem all_ws_of_skipWs_nil : ∀ {l : List Char}, skipWs l = [] → ∀ c ∈ l, isJsonWs c = true := by
  intro l
  induction l with
  | nil => intro _ c hc; cases hc
  | cons y ys ih =>
      intro h c hc
      by_cases hy : isJsonWs y = true
      · simp only [skipWs, if_pos hy] at h
        rcases List.mem_cons.mp hc with rfl | hmem
        · exact hy
        · exact ih h c hmem
      · simp only [skipWs, if_neg hy] at h
        cases h

theorem skipWs_append_of_nil : ∀ {l : List Char}, skipWs l = [] →
    ∀ t, skipWs (l ++ t) = skipWs t := by
  intro l
  induction l with
  | nil => intro _ t; rfl
  | cons y ys ih =>
      intro h t
      by_cases hy : isJsonWs y = true
      · simp only [skipWs, if_pos hy] at h
        simp only [List.cons_append, skipWs, if_pos hy]
        exact ih h t
      · simp only [skipWs, if_neg hy] at h
        cases h

theorem skipWs_ne_nil {l : List Char} (h : '}' ∈ l) : ¬(skipWs l = []) := by
  intro hnil
  exact absurd (all_ws_of_skipWs_nil hnil '}' h) (by decide)

theorem litMatch_append : ∀ {p s : List Char}, litMatch p s = true →
    ∀ t, litMatch p (s ++ t) = true := by
  intro p
  induction p with
  | nil => intro s _ t; rfl
  | cons a ps ih =>
      intro s h t
      cases s with
      | nil => simp [litMatch] at h
      | cons c cs =>
          simp only [litMatch, Bool.and_eq_true, decide_eq_true_eq] at h
          simp only [List.cons_append, litMatch, Bool.and_eq_true, decide_eq_true_eq]
          exact ⟨h.1, ih h.2 t⟩

theorem litMatch_length : ∀ {p s : List Char}, litMatch p s = true → p.length ≤ s.length := by
  intro p
  induction p with
  | nil => intro s _; simp
  | cons a ps ih =>
      intro s h
      cases s with
      | nil => simp [litMatch] at h
      | cons c cs =>
          simp only [litMatch, Bool.and_eq_true] at h
          simpa [Nat.succ_le_succ_iff] using ih h.2

theorem litMatch_drop_append {p s : List Char} (h : litMatch p s = true) (t : List Char) :
    (s ++ t).drop p.length = s.drop p.length ++ t :=
  List.drop_append_of_le_length (litMatch_length h)

theorem litMatch_cons_ne {a c : Char} (p s : List Char) (h : ¬(a = c)) :
    litMatch (a :: p) (c :: s) = false := by
  simp [litMatch, h]

theorem takeDigits_push : ∀ {l ds : List Char} {c : Char} {rs : List Char},
    takeDigits l = (ds, c :: rs) → ∀ t, takeDigits (l ++ t) = (ds, c :: (rs ++ t)) := by
  intro l
  induction l with
  | nil =>
      intro ds c rs h t
      simp [takeDigits] at h
  | cons y ys ih =>
      intro ds c rs h t
      by_cases hy : isDigitCh y = true
      · cases hys : takeDigits ys with
        | mk ds0 rs0 =>
            simp only [takeDigits, hys, if_pos hy] at h
            injection h with h1 h2
            subst h2
            have hp := ih hys t
            rw [← h1, List.cons_append]
            simp [takeDigits, if_pos hy, hp]
      · simp only [takeDigits, if_neg hy] at h
        injection h with h1 h2
        injection h2 with h3 h4
        subst h1; subst h3; subst h4
        rw [List.cons_append]
        simp [takeDigits, if_neg hy]

theorem numIntPart_push : ∀ {l ip : List Char} {c : Char} {rs : List Char},
    numIntPart l = some (ip, c :: rs) → ∀ t, numIntPart (l ++ t) = some (ip, c :: (rs ++ t)) := by
  intro l ip c rs h t
  cases l with
  | nil => simp [numIntPart] at h
  | cons y ys =>
      by_cases hy0 : y = '0'
      · subst hy0
        simp only [numIntPart, if_pos rfl] at h
        injection h with h1
        injection h1 with h2 h3
        subst h2
        rw [List.cons_append, h3, List.cons_append]
        simp [numIntPart]
      · by_cases hyd : isDigitCh y = true
        · cases hys : takeDigits ys with
          | mk ds0 rs0 =>
              simp only [numIntPart, if_neg hy0, if_pos hyd, hys] at h
              injection h with h1
              injection h1 with h2 h3
              subst h2; subst h3
              have hp := takeDigits_push hys t
              rw [List.cons_append]
              simp [numIntPart, hy0, hyd, hp]
        · simp [numIntPart, hy0, hyd] at h

theorem numFrac_nil : numFrac [] = ([], []) := rfl

theorem numExp_nil : numExp [] = ([], []) := rfl

theorem numFrac_cons_ne {y : Char} (ys : List Char) (h : ¬(y = '.')) :
    numFrac (y :: ys) = ([], y :: ys) := by
  rw [numFrac.eq_def]
  split
  · rename_i heq
    injection heq with h1
    exact absurd h1 h
  · rfl

theorem numExp_push : ∀ {c3 : Char} {rs3 : List Char} {c : Char} {rs : List Char},
    (numExp (c3 :: rs3)).2 = c :: rs → isNumCont c = false →
    ∀ t, numExp (c3 :: (rs3 ++ t)) = ((numExp (c3 :: rs3)).1, c :: (rs ++ t)) := by
  intro c3 rs3 c rs h hc t
  by_cases he : (c3 = 'e' || c3 = 'E') = true
  · have hor : c3 = 'e' ∨ c3 = 'E' := by simpa using he
    cases rs3 with
    | nil =>
        simp only [numExp, if_pos he] at h
        injection h with hh1 hh2
        subst hh1
        rcases hor with h' | h' <;> rw [h'] at hc <;> exact absurd hc (by decide)
    | cons s4 rs4 =>
        by_cases hs : (s4 = '+' || s4 = '-') = true
        · cases htd : takeDigits rs4 with
          | mk ds1 r5 =>
              cases ds1 with
              | nil =>
                  simp only [numExp, if_pos he, if_pos hs, htd] at h
                  injection h with hh1 hh2
                  subst hh1
                  rcases hor with h' | h' <;> rw [h'] at hc <;> exact absurd hc (by decide)
              | cons d1 ds' =>
                  cases r5 with
                  | nil =>
                      simp only [numExp, if_pos he, if_pos hs, htd] at h
                      cases h
                  | cons c5 rs5 =>
                      have htd2 := takeDigits_push htd t
                      simp only [numExp, if_pos he, if_pos hs, htd] at h
                      injection h with hh1 hh2
                      subst hh1; subst hh2
                      simp only [List.cons_append, numExp, if_pos he, if_pos hs, htd, htd2]
        · cases htd : takeDigits (s4 :: rs4) with
          | mk ds1 r5 =>
              cases ds1 with
              | nil =>
                  simp only [numExp, if_pos he, if_neg hs, htd] at h
                  injection h with hh1 hh2
                  subst hh1
                  rcases hor with h' | h' <;> rw [h'] at hc <;> exact absurd hc (by decide)
              | cons d1 ds' =>
                  cases r5 with
                  | nil =>
                      simp only [numExp, if_pos he, if_neg hs, htd] at h
                      cases h
                  | cons c5 rs5 =>
                      have htd2 := takeDigits_push htd t
                      simp only [List.cons_append] at htd2
                      simp only [numExp, if_pos he, if_neg hs, htd] at h
                      injection h with hh1 hh2
                      subst hh1; subst hh2
                      simp only [List.cons_append, numExp, if_pos he, if_neg hs, htd, htd2]
  · simp only [numExp, if_neg he] at h
    injection h with hh1 hh2
    subst hh1; subst hh2
    simp only [numExp, if_neg he]

theorem numBody_push : ∀ {sgn s1 lex : List Char} {b : Bool} {c : Char} {rs : List Char},
    numBody sgn s1 = some (lex, b, c :: rs) → isNumCont c = false →
    ∀ t, numBody sgn (s1 ++ t) = some (lex, b, c :: (rs ++ t)) := by
  intro sgn s1 lex b c rs h hc t
  cases hip : numIntPart s1 with
  | none =>
      simp only [numBody, hip] at h
      exact Option.noConfusion h
  | some ipp =>
      cases ipp with
      | mk ip s2 =>
          simp only [numBody, hip] at h
          cases s2 with
          | nil =>
              simp only [numFrac_nil, numExp_nil] at h
              injection h with h1
              injection h1 with h2 h3
              injection h3 with h4 h5
              cases h5
          | cons c2 rs2 =>
              have hip2 := numIntPart_push hip t
              by_cases hc2 : c2 = '.'
              · subst hc2
                cases htd : takeDigits rs2 with
                | mk ds0 rest0 =>
                    cases ds0 with
                    | nil =>
                        -- the fraction group fails: the remainder keeps its
                        -- leading dot, contradicting the stopper hypothesis
                        simp only [numFrac, htd] at h
                        have hdot : ¬(('.' = 'e' || '.' = 'E') = true) := by decide
                        simp only [numExp, if_neg hdot] at h
                        injection h with h1
                        injection h1 with h2 h3
                        injection h3 with h4 h5
                        injection h5 with h6 h7
                        rw [← h6] at hc
                        exact absurd hc (by decide)
                    | cons d ds' =>
                        simp only [numFrac, htd] at h
                        cases rest0 with
                        | nil =>
                            simp only [numExp_nil] at h
                            injection h with h1
                            injection h1 with h2 h3
                            injection h3 with h4 h5
                            cases h5
                        | cons c3 rs3 =>
                            injection h with h1
                            injection h1 with h2 h3
                            injection h3 with h4 h5
                            have hex := numExp_push h5 hc t
                            have htd2 := takeDigits_push htd t
                            simp only [numBody, hip2, List.cons_append, numFrac, htd2, hex]
                            rw [h2, h4]
              · rw [numFrac_cons_ne rs2 hc2] at h
                injection h with h1
                injection h1 with h2 h3
                injection h3 with h4 h5
                have hex := numExp_push h5 hc t
                simp only [numBody, hip2, List.cons_append, numFrac_cons_ne (rs2 ++ t) hc2, hex]
                rw [h2, h4]

theorem parseNumber_cons_ne {y : Char} (ys : List Char) (h : ¬(y = '-')) :
    parseNumber (y :: ys) = numBody [] (y :: ys) := by
  rw [parseNumber.eq_def]
  split
  · rename_i heq
    injection heq with heq1 heq2
    exact absurd heq1 h
  · rfl

theorem parseNumber_push {s lex : List Char} {b : Bool} {c : Char} {rs : List Char}
    (h : parseNumber s = some (lex, b, c :: rs)) (hc : isNumCont c = false) (t : List Char) :
    parseNumber (s ++ t) = some (lex, b, c :: (rs ++ t)) := by
  cases s with
  | nil => simp [parseNumber, numBody, numIntPart] at h
  | cons y ys =>
      by_cases hy : y = '-'
      · subst hy
        rw [show parseNumber ('-' :: ys) = numBody ('-' :: []) ys from rfl] at h
        rw [List.cons_append,
          show parseNumber ('-' :: (ys ++ t)) = numBody ('-' :: []) (ys ++ t) from rfl]
        exact numBody_push h hc t
      · rw [parseNumber_cons_ne ys hy] at h
        rw [List.cons_append, parseNumber_cons_ne (ys ++ t) hy, ← List.cons_append]
        exact numBody_push h hc t

theorem parseNumber_some_head {s : List Char} {x : List Char × Bool × List Char}
    (h : parseNumber s = some x) :
    ∃ c rest, s = c :: rest ∧ (c = '-' ∨ isDigitCh c = true) := by
  cases s with
  | nil => simp [parseNumber, numBody, numIntPart] at h
  | cons y ys =>
      refine ⟨y, ys, rfl, ?_⟩
      by_cases hy : y = '-'
      · exact Or.inl hy
      · right
        rw [parseNumber_cons_ne ys hy] at h
        by_cases hd : isDigitCh y = true
        · exact hd
        · exfalso
          have h0 : ¬(y = '0') := by
            intro h0
            rw [h0] at hd
            exact absurd (by decide : isDigitCh '0' = true) hd
          simp [numBody, numIntPart, h0, hd] at h

theorem parseNumber_none_of_head {y : Char} (ys : List Char) (h1 : ¬(y = '-'))
    (h2 : isDigitCh y = false) : parseNumber (y :: ys) = none := by
  have h3 : ¬(y = '0') := by
    intro h0
    rw [h0] at h2
    exact absurd h2 (by decide)
  rw [parseNumber_cons_ne ys h1]
  simp [numBody, numIntPart, h3, h2]

theorem parseNumber_neg_nondigit {c2 : Char} (l : List Char) (h : isDigitCh c2 = false) :
    parseNumber ('-' :: c2 :: l) = none := by
  have h3 : ¬(c2 = '0') := by
    intro h0
    rw [h0] at h
    exact absurd h (by decide)
  rw [show parseNumber ('-' :: c2 :: l) = numBody ('-' :: []) (c2 :: l) from rfl]
  simp [numBody, numIntPart, h3, h]

theorem parseStringRestF_nil : ∀ f, parseStringRestF f [] = none := by
  intro f
  cases f <;> rfl

theorem parseStringRestF_backslash_nil : ∀ f, parseStringRestF f ('\\' :: []) = none := by
  intro f
  cases f with
  | zero => rfl
  | succ f' => cases f' <;> rfl

theorem parseStringRestF_u_short0 : ∀ f, parseStringRestF f ('\\' :: 'u' :: []) = none := by
  intro f
  cases f <;> rfl

theorem parseStringRestF_u_short1 : ∀ f a, parseStringRestF f ('\\' :: 'u' :: a :: []) = none := by
  intro f a
  cases f <;> rfl

theorem parseStringRestF_u_short2 : ∀ f a b, parseStringRestF f ('\\' :: 'u' :: a :: b :: []) = none := by
  intro f a b
  cases f <;> rfl

theorem parseStringRestF_u_short3 : ∀ f a b c,
    parseStringRestF f ('\\' :: 'u' :: a :: b :: c :: []) = none := by
  intro f a b c
  cases f <;> rfl

/-- Unfolding of the scanner at an ordinary character. -/
theorem parseStringRestF_ordinary {c : Char} (hq : ¬(c = '"')) (hbs : ¬(c = '\\'))
    (g : Nat) (X : List Char) :
    parseStringRestF (g + 1) (c :: X) =
      (if c.toNat < 32 then none
       else
         match parseStringRestF g X with
         | some (cs, r) => some (c :: cs, r)
         | none => none) := by
  rw [parseStringRestF.eq_def]
  split
  · omega
  · rename_i heq
    exact List.noConfusion heq
  · rename_i heq
    injection heq with h1 h2
    exact absurd h1 hq
  · rename_i heq
    injection heq with h1 h2
    exact absurd h1 hbs
  · rename_i heq
    injection heq with h1 h2
    exact absurd h1 hbs
  · rename_i f1 c1 rest1 hn1 hn2 hn3 heqf heq
    injection heq with h1 h2
    subst h1; subst h2
    have hf : f1 = g := by omega
    subst hf
    rfl

/-- Unfolding of the scanner at a backslash escape that is not `\u`. -/
theorem parseStringRestF_escape {e : Char} (hu : ¬(e = 'u')) (g : Nat) (X : List Char) :
    parseStringRestF (g + 1) ('\\' :: e :: X) =
      (match escMap e with
       | some c =>
           match parseStringRestF g X with
           | some (cs, r) => some (c :: cs, r)
           | none => none
       | none => none) := by
  rw [parseStringRestF.eq_def]
  split
  · omega
  · rename_i heq
    exact List.noConfusion heq
  · rename_i heq
    injection heq with h1 h2
    exact absurd h1 (by decide)
  · rename_i heq
    injection heq with h1 h2
    injection h2 with h3 h4
    exact absurd h3 hu
  · rename_i f1 e1 rest1 hn1 heqf heq
    injection heq with h1 h2
    injection h2 with h3 h4
    subst h3; subst h4
    have hf : f1 = g := by omega
    subst hf
    rfl
  · rename_i hn1 hn2 hn3 heqf heq
    injection heq with h1 h2
    exact (hn3 e X h1.symm h2.symm).elim

/-- A scan that succeeded on `rest` means `rest` cannot become a `\uXXXX`
escape head through appended text: it either already was one (excluded) or
it is too short to scan successfully. -/
theorem pair_extend_false {f : Nat} {rest t : List Char} {x : List Char × List Char}
    (hsub : parseStringRestF f rest = some x)
    (hnp : ∀ (g1 g2 g3 g4 : Char) (rest2 : List Char),
      rest = '\\' :: 'u' :: g1 :: g2 :: g3 :: g4 :: rest2 → False)
    {G1 G2 G3 G4 : Char} {R2 : List Char}
    (heq : rest ++ t = '\\' :: 'u' :: G1 :: G2 :: G3 :: G4 :: R2) : False := by
  cases rest with
  | nil =>
      rw [parseStringRestF_nil] at hsub
      exact Option.noConfusion hsub
  | cons e1 r1 =>
      injection heq with he1 heq1
      subst he1
      cases r1 with
      | nil =>
          rw [parseStringRestF_backslash_nil] at hsub
          exact Option.noConfusion hsub
      | cons e2 r2 =>
          injection heq1 with he2 heq2
          subst he2
          rcases r2 with _ | ⟨a1, _ | ⟨b1, _ | ⟨c1, _ | ⟨d1, r6⟩⟩⟩⟩
          · rw [parseStringRestF_u_short0] at hsub
            exact Option.noConfusion hsub
          · rw [parseStringRestF_u_short1] at hsub
            exact Option.noConfusion hsub
          · rw [parseStringRestF_u_short2] at hsub
            exact Option.noConfusion hsub
          · rw [parseStringRestF_u_short3] at hsub
            exact Option.noConfusion hsub
          · exact hnp a1 b1 c1 d1 r6 rfl

theorem parseStringRestF_push (f : Nat) (s : List Char) :
    ∀ {cs r : List Char}, parseStringRestF f s = some (cs, r) →
    ∀ {g : Nat}, f ≤ g → ∀ t, parseStringRestF g (s ++ t) = some (cs, r ++ t) := by
  induction f, s using parseStringRestF.induct with
  | case1 s =>
      intro cs r h
      simp [parseStringRestF] at h
  | case2 n =>
      intro cs r h
      simp [parseStringRestF] at h
  | case3 n rest =>
      intro cs r h g hg t
      obtain ⟨g', rfl⟩ : ∃ g'', g = g'' + 1 := ⟨g - 1, by omega⟩
      simp only [parseStringRestF] at h
      injection h with h1
      injection h1 with hcs hr
      subst hcs; subst hr
      rfl
  | case4 f c1 c2 c3 c4 a b c d hu4 hu3 hu2 hu1 hcond1 g1 g2 g3 g4 rest2 a2 b2 c2' d2 hv4 hv3 hv2 hv1 hcond2 cs' r' hsub ih =>
      intro cs r h g hg t
      obtain ⟨g', rfl⟩ : ∃ g'', g = g'' + 1 := ⟨g - 1, by omega⟩
      have hg' : f ≤ g' := by omega
      simp only [parseStringRestF, hu1, hu2, hu3, hu4] at h
      rw [if_pos hcond1] at h
      simp only [hv1, hv2, hv3, hv4] at h
      rw [if_pos hcond2] at h
      simp only [hsub] at h
      injection h with h1
      injection h1 with hcs hr
      subst hcs; subst hr
      have hrec := ih hsub hg' t
      simp only [List.cons_append]
      simp only [parseStringRestF, hu1, hu2, hu3, hu4]
      rw [if_pos hcond1]
      simp only [hv1, hv2, hv3, hv4]
      rw [if_pos hcond2]
      simp only [hrec]
  | case5 f c1 c2 c3 c4 a b c d hu4 hu3 hu2 hu1 hcond1 g1 g2 g3 g4 rest2 a2 b2 c2' d2 hv4 hv3 hv2 hv1 hcond2 hnone ih =>
      intro cs r h g hg t
      simp only [parseStringRestF, hu1, hu2, hu3, hu4] at h
      rw [if_pos hcond1] at h
      simp only [hv1, hv2, hv3, hv4] at h
      rw [if_pos hcond2] at h
      simp only [hnone] at h
      exact Option.noConfusion h
  | case6 f c1 c2 c3 c4 a b c d hu4 hu3 hu2 hu1 hcond1 g1 g2 g3 g4 rest2 a2 b2 c2' d2 hv4 hv3 hv2 hv1 hcond2 cs' r' hsub ih =>
      intro cs r h g hg t
      obtain ⟨g', rfl⟩ : ∃ g'', g = g'' + 1 := ⟨g - 1, by omega⟩
      have hg' : f ≤ g' := by omega
      simp only [parseStringRestF, hu1, hu2, hu3, hu4] at h
      rw [if_pos hcond1] at h
      simp only [hv1, hv2, hv3, hv4] at h
      rw [if_neg hcond2] at h
      simp only [hsub] at h
      injection h with h1
      injection h1 with hcs hr
      subst hcs; subst hr
      have hrec := ih hsub hg' t
      simp only [List.cons_append] at hrec
      simp only [List.cons_append]
      simp only [parseStringRestF, hu1, hu2, hu3, hu4]
      rw [if_pos hcond1]
      simp only [hv1, hv2, hv3, hv4]
      rw [if_neg hcond2]
      simp only [hrec]
  | case7 f c1 c2 c3 c4 a b c d hu4 hu3 hu2 hu1 hcond1 g1 g2 g3 g4 rest2 a2 b2 c2' d2 hv4 hv3 hv2 hv1 hcond2 hnone ih =>
      intro cs r h g hg t
      simp only [parseStringRestF, hu1, hu2, hu3, hu4] at h
      rw [if_pos hcond1] at h
      simp only [hv1, hv2, hv3, hv4] at h
      rw [if_neg hcond2] at h
      simp only [hnone] at h
      exact Option.noConfusion h
  | case8 f c1 c2 c3 c4 a b c d hu4 hu3 hu2 hu1 hcond1 g1 g2 g3 g4 rest2 hbad =>
      intro cs r h g hg t
      simp only [parseStringRestF, hu1, hu2, hu3, hu4] at h
      rw [if_pos hcond1] at h
      exact Option.noConfusion h
  | case9 f c1 c2 c3 c4 rest a b c d hu4 hu3 hu2 hu1 hcond1 cs' r' hsub hnp ih =>
      intro cs r h g hg t
      obtain ⟨g', rfl⟩ : ∃ g'', g = g'' + 1 := ⟨g - 1, by omega⟩
      have hg' : f ≤ g' := by omega
      simp only [parseStringRestF, hu1, hu2, hu3, hu4] at h
      rw [if_pos hcond1] at h
      simp only [hsub] at h
      injection h with h1
      injection h1 with hcs hr
      subst hcs; subst hr
      have hrec := ih hsub hg' t
      simp only [List.cons_append]
      simp only [parseStringRestF, hu1, hu2, hu3, hu4]
      rw [if_pos hcond1]
      split
      · rename_i heqpair
        exact (pair_extend_false hsub hnp heqpair).elim
      · simp only [hrec]
  | case10 f c1 c2 c3 c4 rest a b c d hu4 hu3 hu2 hu1 hcond1 hnone hnp ih =>
      intro cs r h g hg t
      simp only [parseStringRestF, hu1, hu2, hu3, hu4] at h
      rw [if_pos hcond1] at h
      simp only [hnone] at h
      exact Option.noConfusion h
  | case11 f c1 c2 c3 c4 rest a b c d hu4 hu3 hu2 hu1 hcond1 cs' r' hsub ih =>
      intro cs r h g hg t
      obtain ⟨g', rfl⟩ : ∃ g'', g = g'' + 1 := ⟨g - 1, by omega⟩
      have hg' : f ≤ g' := by omega
      simp only [parseStringRestF, hu1, hu2, hu3, hu4] at h
      rw [if_neg hcond1] at h
      simp only [hsub] at h
      injection h with h1
      injection h1 with hcs hr
      subst hcs; subst hr
      have hrec := ih hsub hg' t
      simp only [List.cons_append]
      simp only [parseStringRestF, hu1, hu2, hu3, hu4]
      rw [if_neg hcond1]
      simp only [hrec]
  | case12 f c1 c2 c3 c4 rest a b c d hu4 hu3 hu2 hu1 hcond1 hnone ih =>
      intro cs r h g hg t
      simp only [parseStringRestF, hu1, hu2, hu3, hu4] at h
      rw [if_neg hcond1] at h
      simp only [hnone] at h
      exact Option.noConfusion h
  | case13 f c1 c2 c3 c4 rest hbad =>
      intro cs r h g hg t
      simp only [parseStringRestF] at h
      exact Option.noConfusion h
  | case14 f e rest hnotu c0 hesc cs' r' hsub ih =>
      intro cs r h g hg t
      obtain ⟨g', rfl⟩ : ∃ g'', g = g'' + 1 := ⟨g - 1, by omega⟩
      have hg' : f ≤ g' := by omega
      have hu : ¬(e = 'u') := by
        intro hh
        rw [hh] at hesc
        rw [(by decide : escMap 'u' = (none : Option Char))] at hesc
        exact Option.noConfusion hesc
      rw [parseStringRestF_escape hu] at h
      simp only [hesc, hsub] at h
      injection h with h1
      injection h1 with hcs hr
      subst hcs; subst hr
      have hrec := ih hsub hg' t
      simp only [List.cons_append]
      rw [parseStringRestF_escape hu]
      simp only [hesc, hrec]
  | case15 f e rest hnotu c0 hesc hnone ih =>
      intro cs r h g hg t
      have hu : ¬(e = 'u') := by
        intro hh
        rw [hh] at hesc
        rw [(by decide : escMap 'u' = (none : Option Char))] at hesc
        exact Option.noConfusion hesc
      rw [parseStringRestF_escape hu] at h
      simp only [hesc, hnone] at h
      exact Option.noConfusion h
  | case16 f e rest hnotu hesc =>
      intro cs r h g hg t
      by_cases hu : e = 'u'
      · subst hu
        rcases rest with _ | ⟨a1, _ | ⟨b1, _ | ⟨c1, _ | ⟨d1, r6⟩⟩⟩⟩
        · rw [parseStringRestF_u_short0] at h
          exact Option.noConfusion h
        · rw [parseStringRestF_u_short1] at h
          exact Option.noConfusion h
        · rw [parseStringRestF_u_short2] at h
          exact Option.noConfusion h
        · rw [parseStringRestF_u_short3] at h
          exact Option.noConfusion h
        · exact (hnotu a1 b1 c1 d1 r6 rfl rfl).elim
      · rw [parseStringRestF_escape hu] at h
        simp only [hesc] at h
        exact Option.noConfusion h
  | case17 f c0 rest hnq hndeep hnesc hctl =>
      intro cs r h g hg t
      have hq : ¬(c0 = '"') := by
        intro hh
        rw [hh] at hctl
        exact absurd hctl (by decide)
      have hbs : ¬(c0 = '\\') := by
        intro hh
        rw [hh] at hctl
        exact absurd hctl (by decide)
      rw [parseStringRestF_ordinary hq hbs] at h
      rw [if_pos hctl] at h
      exact Option.noConfusion h
  | case18 f c0 rest hnq hndeep hnesc hctl cs' r' hsub ih =>
      intro cs r h g hg t
      obtain ⟨g', rfl⟩ : ∃ g'', g = g'' + 1 := ⟨g - 1, by omega⟩
      have hg' : f ≤ g' := by omega
      have hq : ¬(c0 = '"') := fun hh => (hnq hh).elim
      cases rest with
      | nil =>
          rw [parseStringRestF_nil] at hsub
          exact Option.noConfusion hsub
      | cons e1 r1 =>
          have hbs : ¬(c0 = '\\') := fun hh => (hnesc e1 r1 hh rfl).elim
          rw [parseStringRestF_ordinary hq hbs] at h
          rw [if_neg hctl] at h
          simp only [hsub] at h
          injection h with h1
          injection h1 with hcs hr
          subst hcs; subst hr
          have hrec := ih hsub hg' t
          simp only [List.cons_append]
          rw [parseStringRestF_ordinary hq hbs]
          rw [if_neg hctl]
          simp only [List.cons_append] at hrec
          simp only [hrec]
  | case19 f c0 rest hnq hndeep hnesc hctl hnone ih =>
      intro cs r h g hg t
      have hq : ¬(c0 = '"') := fun hh => (hnq hh).elim
      cases rest with
      | nil =>
          by_cases hbs : c0 = '\\'
          · subst hbs
            rw [parseStringRestF_backslash_nil] at h
            exact Option.noConfusion h
          · rw [parseStringRestF_ordinary hq hbs] at h
            rw [if_neg hctl] at h
            simp only [parseStringRestF_nil] at h
            exact Option.noConfusion h
      | cons e1 r1 =>
          have hbs : ¬(c0 = '\\') := fun hh => (hnesc e1 r1 hh rfl).elim
          rw [parseStringRestF_ordinary hq hbs] at h
          rw [if_neg hctl] at h
          simp only [hnone] at h
          exact Option.noConfusion h

theorem parseString_push {s cs r : List Char} (h : parseString s = some (cs, r)) (t : List Char) :
    parseString (s ++ t) = some (cs, r ++ t) := by
  unfold parseString at h ⊢
  exact parseStringRestF_push (s.length + 1) s h
    (by simp only [List.length_append]; omega) t

theorem parseValue_nil (f : Nat) : parseValue f [] = none := by
  cases f <;> rfl

theorem parseMembers_nil (f : Nat) : parseMembers f [] = none := by
  cases f <;> rfl

theorem parseElems_nil (f : Nat) : parseElems f [] = none := by
  cases f with
  | zero => rfl
  | succ f' =>
      rw [parseElems_succ]
      show parseElemsCore (parseValue f') (parseElems f') [] = none
      simp [parseElemsCore, parseValue_nil]

theorem skipWs_push_ne {l : List Char} (h : ¬(skipWs l = [])) (t : List Char) :
    skipWs (l ++ t) = skipWs l ++ t := by
  cases hswl : skipWs l with
  | nil => exact absurd hswl h
  | cons c xs =>
      rw [skipWs_push hswl t]
      simp

theorem ws_not_numCont {y : Char} (hy : isJsonWs y = true) : isNumCont y = false := by
  have hy' : ((y = ' ' ∨ y = Char.ofNat 9) ∨ y = Char.ofNat 10) ∨ y = Char.ofNat 13 := by
    simpa [isJsonWs] using hy
  rcases hy' with ((rfl | rfl) | rfl) | rfl <;> decide

theorem stopper_of_skipWs {l : List Char} {c : Char} {xs : List Char}
    (h : skipWs l = c :: xs) (hc : isNumCont c = false) :
    ∃ c' rs, l = c' :: rs ∧ isNumCont c' = false := by
  cases l with
  | nil => simp [skipWs] at h
  | cons y ys =>
      by_cases hy : isJsonWs y = true
      · exact ⟨y, ys, rfl, ws_not_numCont hy⟩
      · simp only [skipWs, if_neg hy] at h
        injection h with h1 h2
        exact ⟨y, ys, rfl, h1 ▸ hc⟩

theorem parseMembersCore_ne {pv : List Char → Option (Json × List Char)}
    {pm : List Char → Option (JsonPairs × List Char)} {c : Char} (rest : List Char)
    (hc : ¬(c = '"')) : parseMembersCore pv pm (c :: rest) = none := by
  rw [parseMembersCore.eq_def]
  split
  · rename_i heq
    injection heq with h1 h2
    exact absurd h1 hc
  · rfl

/-- Unfolding of the value scanner on an input that starts with none of the
three delimiter characters: the literal and number cascade. -/
theorem parseValueCore_default (pm : List Char → Option (JsonPairs × List Char))
    (pe : List Char → Option (JsonList × List Char)) {c : Char} (ss : List Char)
    (h1 : ¬(c = '"')) (h2 : ¬(c = '{')) (h3 : ¬(c = '[')) :
    parseValueCore pm pe (c :: ss) =
      (if litMatch ('n' :: 'u' :: 'l' :: 'l' :: []) (c :: ss) then
        some (Json.null, (c :: ss).drop 4)
      else if litMatch ('t' :: 'r' :: 'u' :: 'e' :: []) (c :: ss) then
        some (Json.bool true, (c :: ss).drop 4)
      else if litMatch ('f' :: 'a' :: 'l' :: 's' :: 'e' :: []) (c :: ss) then
        some (Json.bool false, (c :: ss).drop 5)
      else
        match parseNumber (c :: ss) with
        | some (lex, isInt, rest) =>
            if isInt then some (Json.int (lexToInt lex), rest)
            else some (Json.float lex, rest)
        | none =>
            if litMatch ('N' :: 'a' :: 'N' :: []) (c :: ss) then
              some (Json.float ('N' :: 'a' :: 'N' :: []), (c :: ss).drop 3)
            else if litMatch ('I' :: 'n' :: 'f' :: 'i' :: 'n' :: 'i' :: 't' :: 'y' :: []) (c :: ss) then
              some (Json.float ('I' :: 'n' :: 'f' :: 'i' :: 'n' :: 'i' :: 't' :: 'y' :: []), (c :: ss).drop 8)
            else if litMatch ('-' :: 'I' :: 'n' :: 'f' :: 'i' :: 'n' :: 'i' :: 't' :: 'y' :: []) (c :: ss) then
              some (Json.float ('-' :: 'I' :: 'n' :: 'f' :: 'i' :: 'n' :: 'i' :: 't' :: 'y' :: []), (c :: ss).drop 9)
            else none) := by
  rw [parseValueCore.eq_def]
  split
  · rename_i heq
    exact List.noConfusion heq
  · rename_i heq
    injection heq with hx1 hx2
    exact absurd hx1 h1
  · rename_i heq
    injection heq with hx1 hx2
    exact absurd hx1 h2
  · rename_i heq
    injection heq with hx1 hx2
    exact absurd hx1 h3
  · rfl

theorem bool_ne_true {b : Bool} (h : b = false) : ¬(b = true) := by
  rw [h]
  decide

theorem litMatch_cons_head {a : Char} {p : List Char} {c : Char} {ss : List Char}
    (h : litMatch (a :: p) (c :: ss) = true) : a = c ∧ litMatch p ss = true := by
  simpa [litMatch, Bool.and_eq_true, decide_eq_true_eq] using h

/-- Appending text behind an input on which a scan succeeded does not change
the scan, for all three mutually recursive scanners, also at larger fuel.
For the value scanner the first unconsumed character must not be able to
extend a number match (or the value must be delimiter-led), which holds at
every use site. -/
theorem scanners_push : ∀ f : Nat,
    (∀ (s t : List Char) (v : Json) (r : List Char) (g : Nat), f ≤ g →
      parseValue f s = some (v, r) → valuePushSafe s r →
      parseValue g (s ++ t) = some (v, r ++ t))
    ∧ (∀ (s t : List Char) (ps : JsonPairs) (r : List Char) (g : Nat), f ≤ g →
      parseMembers f s = some (ps, r) →
      parseMembers g (s ++ t) = some (ps, r ++ t))
    ∧ (∀ (s t : List Char) (vs : JsonList) (r : List Char) (g : Nat), f ≤ g →
      parseElems f s = some (vs, r) →
      parseElems g (s ++ t) = some (vs, r ++ t)) := by
  intro f
  induction f with
  | zero =>
      refine ⟨?_, ?_, ?_⟩
      · intro s t v r g hg h hsafe
        rw [parseValue_zero] at h
        exact Option.noConfusion h
      · intro s t ps r g hg h
        rw [parseMembers_zero] at h
        exact Option.noConfusion h
      · intro s t vs r g hg h
        rw [parseElems_zero] at h
        exact Option.noConfusion h
  | succ f ih =>
      obtain ⟨ihV, ihM, ihE⟩ := ih
      refine ⟨?_, ?_, ?_⟩
      · -- the value scanner
        intro s t v r g hg h hsafe
        obtain ⟨g', rfl⟩ : ∃ g'', g = g'' + 1 := ⟨g - 1, by omega⟩
        have hg' : f ≤ g' := by omega
        rw [parseValue_succ] at h
        rw [parseValue_succ]
        cases s with
        | nil => exact Option.noConfusion h
        | cons c ss =>
            by_cases hq : c = '"'
            · subst hq
              simp only [parseValueCore] at h
              cases hps : parseString ss with
              | none =>
                  simp only [hps] at h
                  exact Option.noConfusion h
              | some p =>
                  obtain ⟨cs1, r1⟩ := p
                  simp only [hps] at h
                  injection h with h1
                  injection h1 with hv hr
                  subst hv; subst hr
                  simp only [List.cons_append, parseValueCore, parseString_push hps t]
            · by_cases hbr : c = '{'
              · subst hbr
                simp only [parseValueCore] at h
                cases hsw : skipWs ss with
                | nil =>
                    simp only [hsw, parseMembers_nil] at h
                    exact Option.noConfusion h
                | cons c2 rest2 =>
                    by_cases hc2 : c2 = '}'
                    · subst hc2
                      simp only [hsw] at h
                      injection h with h1
                      injection h1 with hv hr
                      subst hv; subst hr
                      simp only [List.cons_append, parseValueCore, skipWs_push hsw t]
                    · simp only [hsw] at h
                      split at h
                      · rename_i heq
                        injection heq with hx1 hx2
                        exact absurd hx1 hc2
                      · cases hpm : parseMembers f (c2 :: rest2) with
                        | none =>
                            simp only [hpm] at h
                            exact Option.noConfusion h
                        | some p =>
                            obtain ⟨ps1, r1⟩ := p
                            simp only [hpm] at h
                            injection h with h1
                            injection h1 with hv hr
                            subst hv; subst hr
                            have hrec := ihM (c2 :: rest2) t ps1 r1 g' hg' hpm
                            simp only [List.cons_append] at hrec
                            simp only [List.cons_append, parseValueCore, skipWs_push hsw t]
                            split
                            · rename_i heq
                              injection heq with hx1 hx2
                              exact absurd hx1 hc2
                            · simp only [hrec]
              · by_cases hbk : c = '['
                · subst hbk
                  simp only [parseValueCore] at h
                  cases hsw : skipWs ss with
                  | nil =>
                      simp only [hsw, parseElems_nil] at h
                      exact Option.noConfusion h
                  | cons c2 rest2 =>
                      by_cases hc2 : c2 = ']'
                      · subst hc2
                        simp only [hsw] at h
                        injection h with h1
                        injection h1 with hv hr
                        subst hv; subst hr
                        simp only [List.cons_append, parseValueCore, skipWs_push hsw t]
                      · simp only [hsw] at h
                        split at h
                        · rename_i heq
                          injection heq with hx1 hx2
                          exact absurd hx1 hc2
                        · cases hpe : parseElems f (c2 :: rest2) with
                          | none =>
                              simp only [hpe] at h
                              exact Option.noConfusion h
                          | some p =>
                              obtain ⟨vs1, r1⟩ := p
                              simp only [hpe] at h
                              injection h with h1
                              injection h1 with hv hr
                              subst hv; subst hr
                              have hrec := ihE (c2 :: rest2) t vs1 r1 g' hg' hpe
                              simp only [List.cons_append] at hrec
                              simp only [List.cons_append, parseValueCore, skipWs_push hsw t]
                              split
                              · rename_i heq
                                injection heq with hx1 hx2
                                exact absurd hx1 hc2
                              · simp only [hrec]
                · -- literal and number cascade
                  rw [parseValueCore_default (parseMembers f) (parseElems f) ss hq hbr hbk] at h
                  have hgoal :
                      parseValueCore (parseMembers g') (parseElems g') ((c :: ss) ++ t)
                        = parseValueCore (parseMembers g') (parseElems g') (c :: (ss ++ t)) := by
                    simp only [List.cons_append]
                  rw [hgoal, parseValueCore_default (parseMembers g') (parseElems g') (ss ++ t) hq hbr hbk]
                  by_cases hnull : litMatch ('n' :: 'u' :: 'l' :: 'l' :: []) (c :: ss) = true
                  · rw [if_pos hnull] at h
                    injection h with h1
                    injection h1 with hv hr
                    subst hv; subst hr
                    have hl := litMatch_append hnull t
                    have hd := litMatch_drop_append hnull t
                    simp only [List.cons_append] at hl hd
                    have hd4 : List.drop 4 (c :: (ss ++ t)) = List.drop 4 (c :: ss) ++ t := by
                      simpa using hd
                    rw [if_pos hl, hd4]
                  · rw [if_neg hnull] at h
                    by_cases htrue : litMatch ('t' :: 'r' :: 'u' :: 'e' :: []) (c :: ss) = true
                    · rw [if_pos htrue] at h
                      injection h with h1
                      injection h1 with hv hr
                      subst hv; subst hr
                      obtain ⟨hct, _⟩ := litMatch_cons_head htrue
                      have hfn : litMatch ('n' :: 'u' :: 'l' :: 'l' :: []) (c :: (ss ++ t)) = false :=
                        litMatch_cons_ne _ _ (by rw [← hct]; decide)
                      have hl := litMatch_append htrue t
                      have hd := litMatch_drop_append htrue t
                      simp only [List.cons_append] at hl hd
                      have hd4 : List.drop 4 (c :: (ss ++ t)) = List.drop 4 (c :: ss) ++ t := by
                        simpa using hd
                      rw [if_neg (bool_ne_true hfn), if_pos hl, hd4]
                    · rw [if_neg htrue] at h
                      by_cases hfalse : litMatch ('f' :: 'a' :: 'l' :: 's' :: 'e' :: []) (c :: ss) = true
                      · rw [if_pos hfalse] at h
                        injection h with h1
                        injection h1 with hv hr
                        subst hv; subst hr
                        obtain ⟨hcf, _⟩ := litMatch_cons_head hfalse
                        have hfn : litMatch ('n' :: 'u' :: 'l' :: 'l' :: []) (c :: (ss ++ t)) = false :=
                          litMatch_cons_ne _ _ (by rw [← hcf]; decide)
                        have hft : litMatch ('t' :: 'r' :: 'u' :: 'e' :: []) (c :: (ss ++ t)) = false :=
                          litMatch_cons_ne _ _ (by rw [← hcf]; decide)
                        have hl := litMatch_append hfalse t
                        have hd := litMatch_drop_append hfalse t
                        simp only [List.cons_append] at hl hd
                        have hd5 : List.drop 5 (c :: (ss ++ t)) = List.drop 5 (c :: ss) ++ t := by
                          simpa using hd
                        rw [if_neg (bool_ne_true hfn), if_neg (bool_ne_true hft), if_pos hl, hd5]
                      · rw [if_neg hfalse] at h
                        cases hnum : parseNumber (c :: ss) with
                        | some trip =>
                            obtain ⟨lex, bInt, rest1⟩ := trip
                            simp only [hnum] at h
                            have hstop : ∃ c' rs, r = c' :: rs ∧ isNumCont c' = false := by
                              rcases hsafe with hh | hh | hh | hh
                              · simp only [List.head?_cons] at hh
                                injection hh with hx
                                exact absurd hx hbr
                              · simp only [List.head?_cons] at hh
                                injection hh with hx
                                exact absurd hx hbk
                              · simp only [List.head?_cons] at hh
                                injection hh with hx
                                exact absurd hx hq
                              · exact hh
                            obtain ⟨hcnum, hrest0, hshape, hcd⟩ :
                                ∃ c0 rest0, (c :: ss) = c0 :: rest0 ∧ (c0 = '-' ∨ isDigitCh c0 = true) := by
                              exact parseNumber_some_head hnum
                            injection hshape with hc0 hrest00
                            subst hc0
                            have hn1 : ¬('n' = c) := by
                              rcases hcd with rfl | hdg
                              · decide
                              · intro hh
                                rw [← hh] at hdg
                                exact absurd hdg (by decide)
                            have hn2 : ¬('t' = c) := by
                              rcases hcd with rfl | hdg
                              · decide
                              · intro hh
                                rw [← hh] at hdg
                                exact absurd hdg (by decide)
                            have hn3 : ¬('f' = c) := by
                              rcases hcd with rfl | hdg
                              · decide
                              · intro hh
                                rw [← hh] at hdg
                                exact absurd hdg (by decide)
                            have hf1 := litMatch_cons_ne ('u' :: 'l' :: 'l' :: []) (ss ++ t) hn1
                            have hf2 := litMatch_cons_ne ('r' :: 'u' :: 'e' :: []) (ss ++ t) hn2
                            have hf3 := litMatch_cons_ne ('a' :: 'l' :: 's' :: 'e' :: []) (ss ++ t) hn3
                            rw [if_neg (bool_ne_true hf1), if_neg (bool_ne_true hf2),
                              if_neg (bool_ne_true hf3)]
                            cases bInt with
                            | true =>
                                rw [if_pos rfl] at h
                                injection h with h1
                                injection h1 with hv hr
                                subst hv; subst hr
                                obtain ⟨c', rs', hr', hcd'⟩ := hstop
                                rw [hr'] at hnum
                                have hpush := parseNumber_push hnum hcd' t
                                simp only [List.cons_append] at hpush
                                simp only [hpush, ← hr']
                                simp [hr']
                            | false =>
                                rw [if_neg (by decide)] at h
                                injection h with h1
                                injection h1 with hv hr
                                subst hv; subst hr
                                obtain ⟨c', rs', hr', hcd'⟩ := hstop
                                rw [hr'] at hnum
                                have hpush := parseNumber_push hnum hcd' t
                                simp only [List.cons_append] at hpush
                                simp only [hpush, ← hr']
                                simp [hr']
                        | none =>
                            simp only [hnum] at h
                            by_cases hNaN : litMatch ('N' :: 'a' :: 'N' :: []) (c :: ss) = true
                            · rw [if_pos hNaN] at h
                              injection h with h1
                              injection h1 with hv hr
                              subst hv; subst hr
                              obtain ⟨hcN, _⟩ := litMatch_cons_head hNaN
                              have hf1 := litMatch_cons_ne ('u' :: 'l' :: 'l' :: []) (ss ++ t)
                                (show ¬('n' = c) by rw [← hcN]; decide)
                              have hf2 := litMatch_cons_ne ('r' :: 'u' :: 'e' :: []) (ss ++ t)
                                (show ¬('t' = c) by rw [← hcN]; decide)
                              have hf3 := litMatch_cons_ne ('a' :: 'l' :: 's' :: 'e' :: []) (ss ++ t)
                                (show ¬('f' = c) by rw [← hcN]; decide)
                              have hnum2 : parseNumber (c :: (ss ++ t)) = none := by
                                rw [← hcN]
                                exact parseNumber_none_of_head (ss ++ t) (by decide) (by decide)
                              have hl := litMatch_append hNaN t
                              have hd := litMatch_drop_append hNaN t
                              simp only [List.cons_append] at hl hd
                              rw [if_neg (bool_ne_true hf1), if_neg (bool_ne_true hf2),
                                if_neg (bool_ne_true hf3)]
                              simp only [hnum2]
                              have hd3 : List.drop 3 (c :: (ss ++ t)) = List.drop 3 (c :: ss) ++ t := by
                                simpa using hd
                              rw [if_pos hl, hd3]
                            · rw [if_neg hNaN] at h
                              by_cases hInf : litMatch ('I' :: 'n' :: 'f' :: 'i' :: 'n' :: 'i' :: 't' :: 'y' :: []) (c :: ss) = true
                              · rw [if_pos hInf] at h
                                injection h with h1
                                injection h1 with hv hr
                                subst hv; subst hr
                                obtain ⟨hcI, _⟩ := litMatch_cons_head hInf
                                have hf1 := litMatch_cons_ne ('u' :: 'l' :: 'l' :: []) (ss ++ t)
                                  (show ¬('n' = c) by rw [← hcI]; decide)
                                have hf2 := litMatch_cons_ne ('r' :: 'u' :: 'e' :: []) (ss ++ t)
                                  (show ¬('t' = c) by rw [← hcI]; decide)
                                have hf3 := litMatch_cons_ne ('a' :: 'l' :: 's' :: 'e' :: []) (ss ++ t)
                                  (show ¬('f' = c) by rw [← hcI]; decide)
                                have hf4 := litMatch_cons_ne ('a' :: 'N' :: []) (ss ++ t)
                                  (show ¬('N' = c) by rw [← hcI]; decide)
                                have hnum2 : parseNumber (c :: (ss ++ t)) = none := by
                                  rw [← hcI]
                                  exact parseNumber_none_of_head (ss ++ t) (by decide) (by decide)
                                have hl := litMatch_append hInf t
                                have hd := litMatch_drop_append hInf t
                                simp only [List.cons_append] at hl hd
                                rw [if_neg (bool_ne_true hf1), if_neg (bool_ne_true hf2),
                                  if_neg (bool_ne_true hf3)]
                                simp only [hnum2]
                                have hd8 : List.drop 8 (c :: (ss ++ t)) = List.drop 8 (c :: ss) ++ t := by
                                  simpa using hd
                                rw [if_neg (bool_ne_true hf4), if_pos hl, hd8]
                              · rw [if_neg hInf] at h
                                by_cases hmInf : litMatch ('-' :: 'I' :: 'n' :: 'f' :: 'i' :: 'n' :: 'i' :: 't' :: 'y' :: []) (c :: ss) = true
                                · rw [if_pos hmInf] at h
                                  injection h with h1
                                  injection h1 with hv hr
                                  subst hv; subst hr
                                  obtain ⟨hcm, hmrest⟩ := litMatch_cons_head hmInf
                                  cases ss with
                                  | nil => exact absurd hmrest (by decide)
                                  | cons c2 ss2 =>
                                      obtain ⟨hcI2, _⟩ := litMatch_cons_head hmrest
                                      have hf1 := litMatch_cons_ne ('u' :: 'l' :: 'l' :: []) ((c2 :: ss2) ++ t)
                                        (show ¬('n' = c) by rw [← hcm]; decide)
                                      have hf2 := litMatch_cons_ne ('r' :: 'u' :: 'e' :: []) ((c2 :: ss2) ++ t)
                                        (show ¬('t' = c) by rw [← hcm]; decide)
                                      have hf3 := litMatch_cons_ne ('a' :: 'l' :: 's' :: 'e' :: []) ((c2 :: ss2) ++ t)
                                        (show ¬('f' = c) by rw [← hcm]; decide)
                                      have hf4 := litMatch_cons_ne ('a' :: 'N' :: []) ((c2 :: ss2) ++ t)
                                        (show ¬('N' = c) by rw [← hcm]; decide)
                                      have hf5 := litMatch_cons_ne ('n' :: 'f' :: 'i' :: 'n' :: 'i' :: 't' :: 'y' :: []) ((c2 :: ss2) ++ t)
                                        (show ¬('I' = c) by rw [← hcm]; decide)
                                      have hnum2 : parseNumber (c :: ((c2 :: ss2) ++ t)) = none := by
                                        rw [← hcm, ← hcI2]
                                        exact parseNumber_neg_nondigit (ss2 ++ t) (by decide)
                                      have hl := litMatch_append hmInf t
                                      have hd := litMatch_drop_append hmInf t
                                      simp only [List.cons_append] at hl hd
                                      rw [if_neg (bool_ne_true hf1), if_neg (bool_ne_true hf2),
                                        if_neg (bool_ne_true hf3)]
                                      simp only [List.cons_append] at hnum2 hf4 hf5
                                      simp only [List.cons_append, hnum2]
                                      have hd9 : List.drop 9 (c :: c2 :: (ss2 ++ t)) = List.drop 9 (c :: c2 :: ss2) ++ t := by
                                        simpa using hd
                                      rw [if_neg (bool_ne_true hf4), if_neg (bool_ne_true hf5),
                                        if_pos hl, hd9]
                                · rw [if_neg hmInf] at h
                                  exact Option.noConfusion h
      · -- the object-member scanner
        intro s t ps r g hg h
        obtain ⟨g', rfl⟩ : ∃ g'', g = g'' + 1 := ⟨g - 1, by omega⟩
        have hg' : f ≤ g' := by omega
        rw [parseMembers_succ] at h
        rw [parseMembers_succ]
        cases s with
        | nil => exact Option.noConfusion h
        | cons c ss =>
            by_cases hc : c = '"'
            · subst hc
              simp only [parseMembersCore] at h
              cases hps : parseString ss with
              | none =>
                  simp only [hps] at h
                  exact Option.noConfusion h
              | some p =>
                  obtain ⟨k1, r2⟩ := p
                  simp only [hps] at h
                  cases hsw : skipWs r2 with
                  | nil =>
                      simp only [hsw] at h
                      exact Option.noConfusion h
                  | cons c3 r3 =>
                      by_cases hc3 : c3 = ':'
                      · subst hc3
                        simp only [hsw] at h
                        cases hpv : parseValue f (skipWs r3) with
                        | none =>
                            simp only [hpv] at h
                            exact Option.noConfusion h
                        | some p2 =>
                            obtain ⟨v1, r4⟩ := p2
                            simp only [hpv] at h
                            cases hsw4 : skipWs r4 with
                            | nil =>
                                simp only [hsw4] at h
                                exact Option.noConfusion h
                            | cons c5 r5 =>
                                have hne3 : ¬(skipWs r3 = []) := by
                                  intro hh
                                  rw [hh, parseValue_nil] at hpv
                                  exact Option.noConfusion hpv
                                by_cases hc5 : c5 = '}'
                                · subst hc5
                                  simp only [hsw4] at h
                                  injection h with h1
                                  injection h1 with hv hr
                                  subst hv; subst hr
                                  have hst := stopper_of_skipWs hsw4 (by decide)
                                  have hrecV := ihV (skipWs r3) t v1 r4 g' hg' hpv
                                    (Or.inr (Or.inr (Or.inr hst)))
                                  rw [← skipWs_push_ne hne3 t] at hrecV
                                  simp only [List.cons_append, parseMembersCore,
                                    parseString_push hps t, skipWs_push hsw t, hrecV,
                                    skipWs_push hsw4 t]
                                · by_cases hc5' : c5 = ','
                                  · subst hc5'
                                    simp only [hsw4] at h
                                    cases hpm2 : parseMembers f (skipWs r5) with
                                    | none =>
                                        simp only [hpm2] at h
                                        exact Option.noConfusion h
                                    | some p3 =>
                                        obtain ⟨ps2, r6⟩ := p3
                                        simp only [hpm2] at h
                                        injection h with h1
                                        injection h1 with hv hr
                                        subst hv; subst hr
                                        have hne5 : ¬(skipWs r5 = []) := by
                                          intro hh
                                          rw [hh, parseMembers_nil] at hpm2
                                          exact Option.noConfusion hpm2
                                        have hst := stopper_of_skipWs hsw4 (by decide)
                                        have hrecV := ihV (skipWs r3) t v1 r4 g' hg' hpv
                                          (Or.inr (Or.inr (Or.inr hst)))
                                        rw [← skipWs_push_ne hne3 t] at hrecV
                                        have hrecM := ihM (skipWs r5) t ps2 r6 g' hg' hpm2
                                        rw [← skipWs_push_ne hne5 t] at hrecM
                                        simp only [List.cons_append, parseMembersCore,
                                          parseString_push hps t, skipWs_push hsw t, hrecV,
                                          skipWs_push hsw4 t, hrecM]
                                  · simp only [hsw4] at h
                                    split at h
                                    · rename_i heq
                                      injection heq with hx1 hx2
                                      exact absurd hx1 hc5
                                    · rename_i heq
                                      injection heq with hx1 hx2
                                      exact absurd hx1 hc5'
                                    · exact Option.noConfusion h
                      · simp only [hsw] at h
                        split at h
                        · rename_i heq
                          injection heq with hx1 hx2
                          exact absurd hx1 hc3
                        · exact Option.noConfusion h
            · rw [parseMembersCore_ne ss hc] at h
              exact Option.noConfusion h
      · -- the array-element scanner
        intro s t vs r g hg h
        obtain ⟨g', rfl⟩ : ∃ g'', g = g'' + 1 := ⟨g - 1, by omega⟩
        have hg' : f ≤ g' := by omega
        rw [parseElems_succ] at h
        rw [parseElems_succ]
        simp only [parseElemsCore] at h
        cases hpv : parseValue f s with
        | none =>
            simp only [hpv] at h
            exact Option.noConfusion h
        | some p =>
            obtain ⟨v1, r1⟩ := p
            simp only [hpv] at h
            cases hsw : skipWs r1 with
            | nil =>
                simp only [hsw] at h
                exact Option.noConfusion h
            | cons c2 rest2 =>
                by_cases hc2 : c2 = ']'
                · subst hc2
                  simp only [hsw] at h
                  injection h with h1
                  injection h1 with hv hr
                  subst hv; subst hr
                  have hst := stopper_of_skipWs hsw (by decide)
                  have hrecV := ihV s t v1 r1 g' hg' hpv (Or.inr (Or.inr (Or.inr hst)))
                  simp only [parseElemsCore, hrecV, skipWs_push hsw t]
                · by_cases hc2' : c2 = ','
                  · subst hc2'
                    simp only [hsw] at h
                    cases hpe2 : parseElems f (skipWs rest2) with
                    | none =>
                        simp only [hpe2] at h
                        exact Option.noConfusion h
                    | some p2 =>
                        obtain ⟨vs2, r3⟩ := p2
                        simp only [hpe2] at h
                        injection h with h1
                        injection h1 with hv hr
                        subst hv; subst hr
                        have hne2 : ¬(skipWs rest2 = []) := by
                          intro hh
                          rw [hh, parseElems_nil] at hpe2
                          exact Option.noConfusion hpe2
                        have hst := stopper_of_skipWs hsw (by decide)
                        have hrecV := ihV s t v1 r1 g' hg' hpv (Or.inr (Or.inr (Or.inr hst)))
                        have hrecE := ihE (skipWs rest2) t vs2 r3 g' hg' hpe2
                        rw [← skipWs_push_ne hne2 t] at hrecE
                        simp only [parseElemsCore, hrecV, skipWs_push hsw t, hrecE]
                  · simp only [hsw] at h
                    split at h
                    · rename_i heq
                      injection heq with hx1 hx2
                      exact absurd hx1 hc2
                    · rename_i heq
                      injection heq with hx1 hx2
                      exact absurd hx1 hc2'
                    · exact Option.noConfusion h

/-- If a text starting with an opening brace parses as a complete JSON
document, then appending further text that still contains a closing brace
destroys parsability: the value scanner consumes the same object and the
appended remainder is non-whitespace trailing data, which `json.loads`
rejects at top level. -/
theorem json_loads_push_fail {tl s₁ : List Char} {v : Json}
    (hv : json_loads ('{' :: tl) = some v) (hmem : '}' ∈ s₁) :
    json_loads (('{' :: tl) ++ s₁) = none := by
  have hsw0 : skipWs ('{' :: tl) = '{' :: tl := by
    simp [skipWs, isJsonWs]
  simp only [json_loads, hsw0] at hv
  cases hpv : parseValue (('{' :: tl).length + 1) ('{' :: tl) with
  | none =>
      rw [hpv] at hv
      exact Option.noConfusion hv
  | some p =>
      obtain ⟨v1, rest⟩ := p
      simp only [hpv] at hv
      cases hrest : skipWs rest with
      | cons c cs =>
          simp only [hrest] at hv
          exact Option.noConfusion hv
      | nil =>
          have hfg : ('{' :: tl).length + 1 ≤ (('{' :: tl) ++ s₁).length + 1 := by
            simp only [List.length_append]
            omega
          have hpush := (scanners_push (('{' :: tl).length + 1)).1 ('{' :: tl) s₁ v1 rest
            ((('{' :: tl) ++ s₁).length + 1) hfg hpv (Or.inl rfl)
          have hswa : skipWs ('{' :: (tl ++ s₁)) = '{' :: (tl ++ s₁) := by
            simp [skipWs, isJsonWs]
          simp only [List.cons_append] at hpush
          simp only [json_loads, List.cons_append, hswa, hpush,
            skipWs_append_of_nil hrest s₁]
          cases hs1 : skipWs s₁ with
          | nil => exact absurd hs1 (skipWs_ne_nil hmem)
          | cons a as => rfl

/-- With a resolvable, nonempty credential, `analyze_log_text` always
returns normally: one network call, and the extraction result (or its
fallback) of the reply content. -/
theorem analyze_log_text_ok (log model : String) (getenv : String → Option String)
    (remote : List Message → String → RemoteResponse) (k : String)
    (hk : getenv "OPENAI_API_KEY" = some k) (hne : ¬(k = "")) :
    analyze_log_text log model getenv remote
      = (Proc.ok (analysisResult (response_content (remote (build_messages log) model))), 1) := by
  simp [analyze_log_text, call_openai_chat, hk, hne]

/-! The claims. -/

/-- Claim C1: whenever JSON extraction fails — in particular whenever the
reply contains no opening brace or bracket at all — `extract_first_json_block`
returns the `None` sentinel (it is a total function, so nothing is raised),
and the analysis returns the fallback object whose single key
`raw_response` holds exactly the raw reply text; with a valid credential the
pipeline therefore returns normally whatever the reply content is. -/
theorem claim_C1 (t : List Char) :
    ((∀ c ∈ t, ¬(c = '{') ∧ ¬(c = '[')) → extract_first_json_block t = none)
    ∧ (extract_first_json_block t = none →
        analysisResult t = Json.obj (JsonPairs.cons raw_response_key (Json.str t) JsonPairs.nil))
    ∧ (∀ (log model : String) (getenv : String → Option String)
         (remote : List Message → String → RemoteResponse) (k : String),
         getenv "OPENAI_API_KEY" = some k → ¬(k = "") →
         response_content (remote (build_messages log) model) = t →
         analyze_log_text log model getenv remote = (Proc.ok (analysisResult t), 1)) := by
  refine ⟨?_, ?_, ?_⟩
  · intro h
    unfold extract_first_json_block
    rw [findBlockSpan_eq_none t h]
  · intro h
    unfold analysisResult
    rw [h]
    rfl
  · intro log model getenv remote k hk hne hresp
    rw [analyze_log_text_ok log model getenv remote k hk hne, hresp]

theorem claim_C1_witness :
    extract_first_json_block ("I could not find any errors.".data) = none
    ∧ analysisResult ("I could not find any errors.".data)
        = Json.obj (JsonPairs.cons raw_response_key
            (Json.str ("I could not find any errors.".data)) JsonPairs.nil) :=
  ⟨(claim_C1 ("I could not find any errors.".data)).1 (by decide),
   (claim_C1 ("I could not find any errors.".data)).2.1
     ((claim_C1 ("I could not find any errors.".data)).1 (by decide))⟩

/-- Claim C2: a reply consisting of a single well-formed JSON object
surrounded by text containing no brace or bracket characters extracts to
exactly the object's own parse: the span found by the scan is the object
itself, and the surrounding prose is discarded. -/
theorem claim_C2 (p mid s : List Char) (v : Json)
    (hp : ∀ c ∈ p, ¬(c = '{') ∧ ¬(c = '}') ∧ ¬(c = '[') ∧ ¬(c = ']'))
    (hs : ∀ c ∈ s, ¬(c = '{') ∧ ¬(c = '}') ∧ ¬(c = '[') ∧ ¬(c = ']'))
    (hv : json_loads ('{' :: mid ++ ['}']) = some v) :
    extract_first_json_block (p ++ ('{' :: mid ++ ['}']) ++ s)
      = json_loads ('{' :: mid ++ ['}'])
    ∧ extract_first_json_block (p ++ ('{' :: mid ++ ['}']) ++ s) = some v := by
  have hrearrange : p ++ ('{' :: mid ++ ['}']) ++ s = p ++ ('{' :: (mid ++ '}' :: s)) := by
    simp
  have hspan : findBlockSpan (p ++ ('{' :: mid ++ ['}']) ++ s) = some ('{' :: mid ++ ['}']) := by
    rw [hrearrange,
      findBlockSpan_skip p ('{' :: (mid ++ '}' :: s)) (fun x hx => ⟨(hp x hx).1, (hp x hx).2.2.1⟩)]
    simp only [findBlockSpan]
    rw [takeToLast_last '}' (fun x hx => (hs x hx).2.1) mid]
    simp
  constructor
  · unfold extract_first_json_block
    rw [hspan]
  · unfold extract_first_json_block
    rw [hspan]
    exact hv

theorem claim_C2_witness :
    extract_first_json_block (("Here is the result: ".data)
        ++ ('{' :: ("\"errors\":[\x7b\"type\":\"X\",\"count\":2\x7d],\"summary\":\"ok\",\"recommendations\":[\"fix X\"]".data) ++ ['}'])
        ++ [])
      = some (Json.obj (JsonPairs.cons ("errors".data)
          (Json.arr (JsonList.cons
            (Json.obj (JsonPairs.cons ("type".data) (Json.str ("X".data))
              (JsonPairs.cons ("count".data) (Json.int 2) JsonPairs.nil)))
            JsonList.nil))
          (JsonPairs.cons ("summary".data) (Json.str ("ok".data))
            (JsonPairs.cons ("recommendations".data)
              (Json.arr (JsonList.cons (Json.str ("fix X".data)) JsonList.nil))
              JsonPairs.nil)))) :=
  (claim_C2 ("Here is the result: ".data)
    ("\"errors\":[\x7b\"type\":\"X\",\"count\":2\x7d],\"summary\":\"ok\",\"recommendations\":[\"fix X\"]".data)
    [] _ (by decide) (by decide) (by decide)).2

/-- Claim C3: when no credential resolves from the environment (after the
dotenv overlay), the run exits with code 1 and performs no network call; at
the level of `call_openai_chat` the credential check yields the exit outcome
with zero network calls, before any remote interaction. -/
theorem claim_C3 (args : Args) (w : World)
    (h : w.getenv "OPENAI_API_KEY" = none ∨ w.getenv "OPENAI_API_KEY" = some "") :
    (main_model args w).exitCode = 1 ∧ (main_model args w).networkCalls = 0
    ∧ ∀ (messages : List Message) (model : String),
        call_openai_chat messages model w.getenv w.remote = (Proc.exited 1 missingKeyMsg, 0) := by
  have hcall : ∀ (messages : List Message) (model : String),
      call_openai_chat messages model w.getenv w.remote = (Proc.exited 1 missingKeyMsg, 0) := by
    intro messages model
    rcases h with h | h <;> simp [call_openai_chat, h]
  refine ⟨?_, ?_, hcall⟩ <;>
  · cases hfe : w.fileExists <;>
      simp [main_model, hfe, analyze_log_text, hcall]

theorem claim_C3_witness :
    (main_model
      { file := "dummy_error.log", model := "gpt-4o-mini", output := none }
      { fileExists := true, fileContents := "boom", getenv := fun _ => none,
        remote := fun _ _ => { attrContent := none, dictContent := none, strRepr := [] },
        writeOk := true, writeError := "" }).exitCode = 1
    ∧ (main_model
      { file := "dummy_error.log", model := "gpt-4o-mini", output := none }
      { fileExists := true, fileContents := "boom", getenv := fun _ => none,
        remote := fun _ _ => { attrContent := none, dictContent := none, strRepr := [] },
        writeOk := true, writeError := "" }).networkCalls = 0 := by
  have h := claim_C3
    { file := "dummy_error.log", model := "gpt-4o-mini", output := none }
    { fileExists := true, fileContents := "boom", getenv := fun _ => none,
      remote := fun _ _ => { attrContent := none, dictContent := none, strRepr := [] },
      writeOk := true, writeError := "" }
    (Or.inl rfl)
  exact ⟨h.1, h.2.1⟩

/-- Claim C4: a run whose log file does not exist exits with code 1 after
printing the diagnostic, and no network call is attempted. -/
theorem claim_C4 (args : Args) (w : World) (h : w.fileExists = false) :
    main_model args w
      = { exitCode := 1, stdout := [fileNotFoundMsg args.file], networkCalls := 0,
          fileWritten := none } := by
  simp [main_model, h]

theorem claim_C4_witness :
    main_model
      { file := "missing.log", model := "gpt-4o-mini", output := none }
      { fileExists := false, fileContents := "", getenv := fun _ => some "sk",
        remote := fun _ _ => { attrContent := none, dictContent := none, strRepr := [] },
        writeOk := true, writeError := "" }
      = { exitCode := 1, stdout := [fileNotFoundMsg "missing.log"], networkCalls := 0,
          fileWritten := none } :=
  claim_C4
    { file := "missing.log", model := "gpt-4o-mini", output := none }
    { fileExists := false, fileContents := "", getenv := fun _ => some "sk",
      remote := fun _ _ => { attrContent := none, dictContent := none, strRepr := [] },
      writeOk := true, writeError := "" }
    rfl

/-- Claim C5: when neither the attribute access path nor the dict-style
access path of the response yields the message content, `call_openai_chat`
still returns normally, with the stringified representation of the response
object it received. -/
theorem claim_C5 (r : RemoteResponse) (h1 : r.attrContent = none) (h2 : r.dictContent = none) :
    response_content r = r.strRepr
    ∧ ∀ (messages : List Message) (model : String) (getenv : String → Option String) (k : String),
        getenv "OPENAI_API_KEY" = some k → ¬(k = "") →
        call_openai_chat messages model getenv (fun _ _ => r) = (Proc.ok r.strRepr, 1) := by
  have hrc : response_content r = r.strRepr := by
    simp [response_content, h1, h2]
  refine ⟨hrc, ?_⟩
  intro messages model getenv k hk hne
  simp [call_openai_chat, hk, hne, hrc]

theorem claim_C5_witness :
    response_content { attrContent := none, dictContent := none, strRepr := "<OpenAIObject>".data }
      = "<OpenAIObject>".data
    ∧ call_openai_chat [] "gpt-4o-mini" (fun _ => some "sk")
        (fun _ _ => { attrContent := none, dictContent := none, strRepr := "<OpenAIObject>".data })
      = (Proc.ok ("<OpenAIObject>".data), 1) :=
  ⟨(claim_C5 { attrContent := none, dictContent := none, strRepr := "<OpenAIObject>".data }
      rfl rfl).1,
   (claim_C5 { attrContent := none, dictContent := none, strRepr := "<OpenAIObject>".data }
      rfl rfl).2 [] "gpt-4o-mini" (fun _ => some "sk") "sk" rfl (by decide)⟩

theorem escChar_eq_self {c : Char} (h1 : ¬(c = '"')) (h2 : ¬(c = Char.ofNat 92))
    (h3 : 32 ≤ c.toNat) : escChar c = [c] := by
  have hn10 : ¬(c = Char.ofNat 10) := by intro h; rw [h] at h3; exact absurd h3 (by decide)
  have hn13 : ¬(c = Char.ofNat 13) := by intro h; rw [h] at h3; exact absurd h3 (by decide)
  have hn9 : ¬(c = Char.ofNat 9) := by intro h; rw [h] at h3; exact absurd h3 (by decide)
  have hn8 : ¬(c = Char.ofNat 8) := by intro h; rw [h] at h3; exact absurd h3 (by decide)
  have hn12 : ¬(c = Char.ofNat 12) := by intro h; rw [h] at h3; exact absurd h3 (by decide)
  have hlt : ¬(c.toNat < 32) := Nat.not_lt.mpr h3
  simp [escChar, h1, h2, hn10, hn13, hn9, hn8, hn12, hlt]

theorem escList_eq_self :
    ∀ s : List Char, (∀ c ∈ s, ¬(c = '"') ∧ ¬(c = Char.ofNat 92) ∧ 32 ≤ c.toNat) →
      escList s = s := by
  intro s
  induction s with
  | nil => intro _; rfl
  | cons c cs ih =>
      intro h
      have hc := h c (List.mem_cons_self c cs)
      have ihc := ih (fun x hx => h x (List.mem_cons_of_mem c hx))
      simp [escList, escChar_eq_self hc.1 hc.2.1 hc.2.2, ihc]

/-- Claim C6: the emit step serializes the result once as indented JSON
(characters that need no escape — all non-ASCII ones included — pass
through verbatim), always prints it to standard output first, and when a
usable output path is given writes the byte-identical text to the file; a
failed write only adds a report line, leaves the printed result in place,
and keeps exit code 0. -/
theorem claim_C6 (args : Args) (w : World) (k : String)
    (hfile : w.fileExists = true)
    (hk : w.getenv "OPENAI_API_KEY" = some k) (hne : ¬(k = "")) :
    (main_model args w).exitCode = 0
    ∧ (main_model args w).stdout.head? = some (mainPretty args w)
    ∧ (args.output = none →
        main_model args w
          = { exitCode := 0, stdout := [mainPretty args w], networkCalls := 1,
              fileWritten := none })
    ∧ (∀ path, args.output = some path → ¬(path = "") → w.writeOk = true →
        main_model args w
          = { exitCode := 0, stdout := [mainPretty args w, wroteMsg path], networkCalls := 1,
              fileWritten := some (mainPretty args w) })
    ∧ (∀ path, args.output = some path → ¬(path = "") → w.writeOk = false →
        main_model args w
          = { exitCode := 0, stdout := [mainPretty args w, writeFailMsg path w.writeError],
              networkCalls := 1, fileWritten := none })
    ∧ (∀ s : List Char, (∀ c ∈ s, ¬(c = '"') ∧ ¬(c = Char.ofNat 92) ∧ 32 ≤ c.toNat) →
        json_dumps (Json.str s) = '"' :: (s ++ ['"'])) := by
  have hok := analyze_log_text_ok w.fileContents args.model w.getenv w.remote k hk hne
  have hmain : main_model args w =
      let pretty := mainPretty args w
      match args.output with
      | none => { exitCode := 0, stdout := [pretty], networkCalls := 1, fileWritten := none }
      | some path =>
          if path = "" then
            { exitCode := 0, stdout := [pretty], networkCalls := 1, fileWritten := none }
          else if w.writeOk then
            { exitCode := 0, stdout := [pretty, wroteMsg path], networkCalls := 1,
              fileWritten := some pretty }
          else
            { exitCode := 0, stdout := [pretty, writeFailMsg path w.writeError], networkCalls := 1,
              fileWritten := none } := by
    simp only [main_model, hfile, Bool.true_eq_false, if_false, hok]
    rfl
  have hstr : ∀ s : List Char,
      (∀ c ∈ s, ¬(c = '"') ∧ ¬(c = Char.ofNat 92) ∧ 32 ≤ c.toNat) →
      json_dumps (Json.str s) = '"' :: (s ++ ['"']) := by
    intro s h
    show encodeJsonString s = '"' :: (s ++ ['"'])
    unfold encodeJsonString
    rw [escList_eq_self s h]
    simp
  refine ⟨?_, ?_, ?_, ?_, ?_, hstr⟩ <;>
    rw [hmain]
  · cases hout : args.output with
    | none => simp
    | some path =>
        by_cases hpath : path = "" <;> cases hwk : w.writeOk <;> simp [hpath, hwk]
  · cases hout : args.output with
    | none => simp
    | some path =>
        by_cases hpath : path = "" <;> cases hwk : w.writeOk <;> simp [hpath, hwk]
  · intro hout; simp [hout]
  · intro path hout hpath hwk; simp [hout, hpath, hwk]
  · intro path hout hpath hwk; simp [hout, hpath, hwk]

theorem claim_C6_witness :
    main_model
      { file := "dummy_error.log", model := "gpt-4o-mini", output := some "out.json" }
      { fileExists := true, fileContents := "log", getenv := fun _ => some "sk",
        remote := fun _ _ =>
          { attrContent := some ("\x7b\"a\": 1\x7d".data), dictContent := none, strRepr := [] },
        writeOk := true, writeError := "" }
      = { exitCode := 0,
          stdout := [mainPretty
              { file := "dummy_error.log", model := "gpt-4o-mini", output := some "out.json" }
              { fileExists := true, fileContents := "log", getenv := fun _ => some "sk",
                remote := fun _ _ =>
                  { attrContent := some ("\x7b\"a\": 1\x7d".data), dictContent := none, strRepr := [] },
                writeOk := true, writeError := "" }, wroteMsg "out.json"],
          networkCalls := 1,
          fileWritten := some (mainPretty
              { file := "dummy_error.log", model := "gpt-4o-mini", output := some "out.json" }
              { fileExists := true, fileContents := "log", getenv := fun _ => some "sk",
                remote := fun _ _ =>
                  { attrContent := some ("\x7b\"a\": 1\x7d".data), dictContent := none, strRepr := [] },
                writeOk := true, writeError := "" }) }
    ∧ mainPretty
        { file := "dummy_error.log", model := "gpt-4o-mini", output := some "out.json" }
        { fileExists := true, fileContents := "log", getenv := fun _ => some "sk",
          remote := fun _ _ =>
            { attrContent := some ("\x7b\"a\": 1\x7d".data), dictContent := none, strRepr := [] },
          writeOk := true, writeError := "" }
      = ("\x7b\n  \"a\": 1\n\x7d".data) :=
  ⟨(claim_C6
      { file := "dummy_error.log", model := "gpt-4o-mini", output := some "out.json" }
      { fileExists := true, fileContents := "log", getenv := fun _ => some "sk",
        remote := fun _ _ =>
          { attrContent := some ("\x7b\"a\": 1\x7d".data), dictContent := none, strRepr := [] },
        writeOk := true, writeError := "" }
      "sk" rfl rfl (by decide)).2.2.2.1 "out.json" rfl (by decide) rfl,
   by decide⟩

/-- Counterexample to claim C8 as stated: in the reply
`\x7b"a":\x7b"b":1\x7d\x7d` the closing brace of the embedded well-formed
object `\x7b"b":1\x7d` is followed by another closing brace, yet the
first-opener-to-last-closer span is the whole reply, which parses, so
`extract_first_json_block` returns the parsed value rather than the `None`
sentinel and the analysis does not fall back to the raw text. -/
theorem claim_C8_counterexample :
    json_loads ("\x7b\"b\":1\x7d".data)
      = some (Json.obj (JsonPairs.cons ("b".data) (Json.int 1) JsonPairs.nil))
    ∧ ("\x7b\"a\":\x7b\"b\":1\x7d\x7d".data)
        = ("\x7b\"a\":".data) ++ ("\x7b\"b\":1\x7d".data) ++ ("\x7d".data)
    ∧ extract_first_json_block ("\x7b\"a\":\x7b\"b\":1\x7d\x7d".data)
        = some (Json.obj (JsonPairs.cons ("a".data)
            (Json.obj (JsonPairs.cons ("b".data) (Json.int 1) JsonPairs.nil)) JsonPairs.nil))
    ∧ ¬(extract_first_json_block ("\x7b\"a\":\x7b\"b\":1\x7d\x7d".data) = none)
    ∧ ¬(analysisResult ("\x7b\"a\":\x7b\"b\":1\x7d\x7d".data)
          = fallbackObj ("\x7b\"a\":\x7b\"b\":1\x7d\x7d".data)) := by
  decide


/-- Claim C8 (corrected): for every reply made of a prefix free of opening
braces and brackets, then a well-formed JSON object, then a tail that still
contains a closing brace, the extraction span runs from the opening brace
of the object to the last closing brace of the whole text, that enlarged
span fails to parse, the extraction returns the `None` sentinel without
trying any smaller span, and the analysis returns the raw-text fallback
object even though a well-formed JSON object was present in the reply.
(As literally stated the claim is false when the later closing brace
belongs to the same well-formed object, for example a nested one; see the
counterexample.) -/
theorem claim_C8 (p mid s s₁ : List Char) (v : Json)
    (hp : ∀ c ∈ p, ¬(c = '{') ∧ ¬(c = '['))
    (hv : json_loads ('{' :: (mid ++ ['}'])) = some v)
    (hs : takeToLast '}' s = some s₁) :
    findBlockSpan (p ++ (('{' :: (mid ++ ['}'])) ++ s))
        = some (('{' :: (mid ++ ['}'])) ++ s₁)
    ∧ json_loads (('{' :: (mid ++ ['}'])) ++ s₁) = none
    ∧ extract_first_json_block (p ++ (('{' :: (mid ++ ['}'])) ++ s)) = none
    ∧ analysisResult (p ++ (('{' :: (mid ++ ['}'])) ++ s))
        = fallbackObj (p ++ (('{' :: (mid ++ ['}'])) ++ s)) := by
  have hmem : '}' ∈ s₁ := by
    obtain ⟨u, rfl⟩ := takeToLast_ends '}' hs
    simp
  have hfail := json_loads_push_fail hv hmem
  have htl := takeToLast_extend '}' hs mid
  have hspan : findBlockSpan (p ++ (('{' :: (mid ++ ['}'])) ++ s))
      = some (('{' :: (mid ++ ['}'])) ++ s₁) := by
    rw [findBlockSpan_skip p _ hp]
    simp only [List.cons_append, List.append_assoc, List.singleton_append,
      List.nil_append, List.append_eq, findBlockSpan, if_true]
    simp only [htl]
  refine ⟨hspan, hfail, ?_, ?_⟩
  · simp only [extract_first_json_block, hspan, hfail]
  · simp only [analysisResult, extract_first_json_block, hspan, hfail]

/-- Concrete run of the corrected claim C8: the reply
`Result: \x7b"a":1\x7d and \x7b"b":2\x7d` contains the well-formed object
`\x7b"a":1\x7d`, yet analysis falls back to the raw text. -/
theorem claim_C8_witness :
    (∀ c ∈ "Result: ".data, ¬(c = '{') ∧ ¬(c = '['))
    ∧ json_loads ('{' :: ("\"a\":1".data ++ ['}']))
        = some (Json.obj (JsonPairs.cons ("a".data) (Json.int 1) JsonPairs.nil))
    ∧ takeToLast '}' (" and \x7b\"b\":2\x7d".data) = some (" and \x7b\"b\":2\x7d".data)
    ∧ analysisResult ("Result: ".data ++ (('{' :: ("\"a\":1".data ++ ['}'])) ++ " and \x7b\"b\":2\x7d".data))
        = fallbackObj ("Result: ".data ++ (('{' :: ("\"a\":1".data ++ ['}'])) ++ " and \x7b\"b\":2\x7d".data)) :=
  ⟨by decide, by decide, by decide,
   (claim_C8 ("Result: ".data) ("\"a\":1".data) (" and \x7b\"b\":2\x7d".data)
      (" and \x7b\"b\":2\x7d".data)
      (Json.obj (JsonPairs.cons ("a".data) (Json.int 1) JsonPairs.nil))
      (by decide) (by decide) (by decide)).2.2.2⟩

/-- Claim C7: the prompt construction is a pure function of the log text
producing exactly two messages: the fixed system instruction, and a user
message that is the literal instruction `Analyze the following log. Output
JSON only.` followed (after the `LOG:` separator) by the entire raw log
text, untruncated. -/
theorem claim_C7 (t : String) :
    build_messages t
      = [{ role := "system", content := systemPrompt },
         { role := "user", content := "Analyze the following log. Output JSON only.\n\nLOG:\n" ++ t }]
    ∧ (build_messages t).length = 2
    ∧ (build_messages t).map Message.role = ["system", "user"] := by
  exact ⟨rfl, rfl, rfl⟩

/-- Claim C9: no schema validation is performed after extraction — whatever
JSON value the extraction yields, object or array, with or without the keys
`errors`, `summary`, `recommendations`, is returned unchanged as the final
analysis result. -/
theorem claim_C9 (resp : List Char) (v : Json) (h : extract_first_json_block resp = some v) :
    analysisResult resp = v
    ∧ ∀ (log model : String) (getenv : String → Option String)
        (remote : List Message → String → RemoteResponse) (k : String),
        getenv "OPENAI_API_KEY" = some k → ¬(k = "") →
        response_content (remote (build_messages log) model) = resp →
        analyze_log_text log model getenv remote = (Proc.ok v, 1) := by
  have hres : analysisResult resp = v := by
    unfold analysisResult
    rw [h]
  refine ⟨hres, ?_⟩
  intro log model getenv remote k hk hne hresp
  rw [analyze_log_text_ok log model getenv remote k hk hne, hresp, hres]

theorem claim_C9_witness :
    analysisResult ("[1, 2]".data)
      = Json.arr (JsonList.cons (Json.int 1) (JsonList.cons (Json.int 2) JsonList.nil)) :=
  (claim_C9 ("[1, 2]".data)
    (Json.arr (JsonList.cons (Json.int 1) (JsonList.cons (Json.int 2) JsonList.nil)))
    (by decide)).1

/-- Claim C10: a credential variable set to the empty string behaves exactly
like an absent credential (Python falsiness): the whole run produces the
same outcome as with the variable unset, exiting with code 1 before any
network call. -/
theorem claim_C10 (args : Args) (w : World) (h : w.getenv "OPENAI_API_KEY" = some "") :
    main_model args w = main_model args { w with getenv := fun _ => none }
    ∧ (main_model args w).exitCode = 1
    ∧ (main_model args w).networkCalls = 0 := by
  have h3 := claim_C3 args w (Or.inr h)
  refine ⟨?_, h3.1, h3.2.1⟩
  cases hfe : w.fileExists <;>
    simp [main_model, hfe, analyze_log_text, call_openai_chat, h]

theorem claim_C10_witness :
    (main_model
      { file := "dummy_error.log", model := "gpt-4o-mini", output := none }
      { fileExists := true, fileContents := "boom", getenv := fun v => if v = "OPENAI_API_KEY" then some "" else none,
        remote := fun _ _ => { attrContent := none, dictContent := none, strRepr := [] },
        writeOk := true, writeError := "" }).exitCode = 1
    ∧ (main_model
      { file := "dummy_error.log", model := "gpt-4o-mini", output := none }
      { fileExists := true, fileContents := "boom", getenv := fun v => if v = "OPENAI_API_KEY" then some "" else none,
        remote := fun _ _ => { attrContent := none, dictContent := none, strRepr := [] },
        writeOk := true, writeError := "" }).networkCalls = 0 := by
  have h := claim_C10
    { file := "dummy_error.log", model := "gpt-4o-mini", output := none }
    { fileExists := true, fileContents := "boom", getenv := fun v => if v = "OPENAI_API_KEY" then some "" else none,
      remote := fun _ _ => { attrContent := none, dictContent := none, strRepr := [] },
      writeOk := true, writeError := "" }
    (by simp)
  exact ⟨h.2.1, h.2.2⟩
